import Mathlib

/-!
Verification of `faim_robocopy/robocopy.py` (fmi-faim/python-scripts).

The development shallowly embeds the Python module:
* the error parser `parse_errors_from_robocopy_stdout` (a concrete regex,
  embedded here as a specialized backtracking matcher over `List Char`),
* the exit-status mapping of `robocopy_call` (the subprocess invocation is
  abstracted to the pair of its observable outputs: return code and stdout),
* the destination sanitizer `_sanitize_destinations`,
* the `RobocopyTask` state machine (`run`, `_run`, `terminate`,
  `_robocopy_callback`), with the worker pool, the wall clock and the
  filesystem helpers from `faim_robocopy.utils` (whose sources are not part
  of this repository snapshot) supplied by an explicit oracle.
-/

namespace FaimRobocopy

/-! ## Character classes of the error regex

The regex in `parse_errors_from_robocopy_stdout` is
`ERROR\s+(\d+)\s+\(0x[0-9a-fA-F]+\)\s+(.*)\n^(.*)$` with `re.MULTILINE`.
`wsChars` lists the characters matched by `\s` on Python `str` input
(ASCII whitespace plus the file separators and Unicode spaces).
`isDigitA` embeds `\d` on the ASCII range; Python `\d` additionally accepts
non-ASCII decimal digits, which never occur in robocopy output and are
outside the character set modelled here. -/

def wsChars : List Char :=
  [' ', '\t', '\n', '\r', '\x0b', '\x0c',
   '\x1c', '\x1d', '\x1e', '\x1f', '\x85', '\xa0',
   '\u1680', '\u2000', '\u2001', '\u2002', '\u2003', '\u2004', '\u2005',
   '\u2006', '\u2007', '\u2008', '\u2009', '\u200A',
   '\u2028', '\u2029', '\u202F', '\u205F', '\u3000']

def isWS (c : Char) : Bool := wsChars.contains c

def isDigitA (c : Char) : Bool := '0' ≤ c && c ≤ '9'

def isHexA (c : Char) : Bool :=
  isDigitA c || ('a' ≤ c && c ≤ 'f') || ('A' ≤ c && c ≤ 'F')

/-- The character predicate of `.` (no DOTALL): anything but a newline. -/
def notNL (c : Char) : Bool := c != '\n'

/-- The literal `ERROR` of the regex. -/
def errLit : List Char := ['E', 'R', 'R', 'O', 'R']

/-- The literal `(0x` of the regex (the backslash escapes the paren). -/
def oxLit : List Char := ['(', '0', 'x']

/-! ## Specialized regex matcher

The pattern is concrete, so instead of a generic regex engine we embed it
as a hand-rolled matcher with exactly the backtracking the Python engine
performs on it.  For `\s+` before `\d`, for `\d+` before `\s`, for `\s+`
before the literal paren and for `[0-9a-fA-F]+` before the closing paren,
the two adjacent character classes are disjoint, so only the maximal munch
can succeed and the matcher takes the maximal run directly.  The one
quantifier whose backtracking is observable is the `\s+` before
`(.*)\n^(.*)$` (whitespace includes newlines while `.` excludes them);
`tryWS` tries every split, longest first, exactly as the engine does. -/

/-- Consume a literal; return the remainder on success. -/
def expectStr : List Char → List Char → Option (List Char)
  | [], l => some l
  | _ :: _, [] => none
  | p :: ps, c :: cs => if c = p then expectStr ps cs else none

/-- Maximal munch of a nonempty run of `p`-characters (a `+` quantifier
followed by a disjoint character class, see above). -/
def takeWhile1 (p : Char → Bool) (l : List Char) : Option (List Char × List Char) :=
  match l with
  | [] => none
  | c :: cs => if p c then some (c :: cs.takeWhile p, cs.dropWhile p) else none

/-- Backtracking search for `\s+(.*)\n^(.*)$`: consume `i` whitespace
characters (longest first), then group 2 is the maximal newline-free run,
which must be followed by a literal newline; group 3 is the maximal
newline-free run after it, and `$` is zero width, so the match ends right
before the next newline (or at the end of input). -/
def tryWS : Nat → List Char → Option (List Char × List Char × List Char)
  | 0, _ => none
  | i + 1, l =>
    let rest := l.drop (i + 1)
    let g2 := rest.takeWhile notNL
    match rest.dropWhile notNL with
    | '\n' :: tail => some (g2, tail.takeWhile notNL, tail.dropWhile notNL)
    | _ => tryWS i l

/-- The part of the pattern after the escaped closing paren. -/
def matchAfterParen (l : List Char) : Option (List Char × List Char × List Char) :=
  tryWS (l.takeWhile isWS).length l

/-- Attempt to match the full pattern at the head of `l`; on success return
the three capture groups and the remainder of the input after the match. -/
def matchErrorAt (l : List Char) : Option ((List Char × List Char × List Char) × List Char) :=
  match expectStr errLit l with
  | none => none
  | some l1 =>
    match takeWhile1 isWS l1 with
    | none => none
    | some (_, l2) =>
      match takeWhile1 isDigitA l2 with
      | none => none
      | some (d, l3) =>
        match takeWhile1 isWS l3 with
        | none => none
        | some (_, l4) =>
          match expectStr oxLit l4 with
          | none => none
          | some l5 =>
            match takeWhile1 isHexA l5 with
            | none => none
            | some (_, l6) =>
              match l6 with
              | ')' :: l7 =>
                match matchAfterParen l7 with
                | none => none
                | some (g2, g3, rest) => some ((d, g2, g3), rest)
              | _ => none

/-- `re.findall` specialized to the pattern: scan left to right, try the
pattern at every position, and resume after the end of each (necessarily
nonempty) match, collecting the capture-group triples in document order.
The scan consumes at least one character per step, so the input length
bounds the number of steps; `findallGo` makes that bound a structural fuel
argument (fuel exhaustion is unreachable, see the fuel lemmas). -/
def findallGo : Nat → List Char → List (List Char × List Char × List Char)
  | 0, _ => []
  | fuel + 1, l =>
    match matchErrorAt l with
    | some (m, rest) => m :: findallGo fuel rest
    | none =>
      match l with
      | [] => []
      | _ :: cs => findallGo fuel cs

/-- `re.findall` of the error pattern over the whole input. -/
def findallErrors (l : List Char) : List (List Char × List Char × List Char) :=
  findallGo l.length l

/-- Python `str.strip` with argument a single carriage return: drop the
maximal runs of carriage returns at both ends. -/
def stripCR (l : List Char) : List Char :=
  ((l.dropWhile (fun c => c == '\r')).reverse.dropWhile (fun c => c == '\r')).reverse

/-- The `RobocopyErrorInfo` namedtuple: fields `code`, `action`, `reason`. -/
structure RobocopyErrorInfo where
  code : String
  action : String
  reason : String
deriving DecidableEq, Repr

/-- `parse_errors_from_robocopy_stdout`, over the decoded character list:
run the specialized `findall`; with no match return Python `None` (the
failure is only logged as unparsed — no exception), otherwise build one
record per match with each captured value stripped of carriage returns. -/
def parseList (l : List Char) : Option (List RobocopyErrorInfo) :=
  match findallErrors l with
  | [] => none
  | ms => some (ms.map (fun m =>
      { code := String.mk (stripCR m.1),
        action := String.mk (stripCR m.2.1),
        reason := String.mk (stripCR m.2.2) }))

/-- `parse_errors_from_robocopy_stdout` on a decoded string.  The UTF-8
decode of the captured bytes is abstracted away: the input is the decoded
text. -/
def parse_errors_from_robocopy_stdout (output : String) : Option (List RobocopyErrorInfo) :=
  parseList output.toList

/-- The `RobocopyError` exception: return code plus the parse result
(`none` when nothing could be parsed from stdout). -/
structure RobocopyError where
  returncode : Nat
  error_info : Option (List RobocopyErrorInfo)
deriving DecidableEq, Repr

/-- `RobocopyError.from_error`: built from a `CalledProcessError` by
keeping its return code and parsing its captured output. -/
def RobocopyError.from_error (returncode : Nat) (output : String) : RobocopyError :=
  { returncode := returncode,
    error_info := parse_errors_from_robocopy_stdout output }

/-- `robocopy_call`, abstracted over the observable outcome of the
subprocess: its exit status and captured output.  `subprocess.check_output`
raises `CalledProcessError` exactly on a nonzero status; the handler
re-raises `RobocopyError` for status at least 8 and logs (at debug level)
without raising for status 2 to 7; status 1 falls through silently.  The
return type records that `RobocopyError` is the only exception this
function can raise to its caller. -/
def robocopy_call (returncode : Nat) (output : String) : Except RobocopyError Unit :=
  if returncode = 0 then Except.ok ()
  else if 8 ≤ returncode then Except.error (RobocopyError.from_error returncode output)
  else Except.ok ()

/-- One syntactic error block as printed by robocopy with CRLF line ends:
the match of the pattern stops right before the newline that ends the
reason line, so the block here carries the trailing carriage return of the
reason but not its newline. -/
def blockCore (d h a r : List Char) : List Char :=
  errLit ++ ' ' :: (d ++ ' ' ::
    (oxLit ++ (h ++ ')' :: ' ' :: (a ++ '\r' :: '\n' :: (r ++ ['\r'])))))

/-- Well-formedness of the text fields of one error block: a nonempty
numeric code, a nonempty hexadecimal code, an action line that is nonempty,
does not begin with pattern whitespace and has no line-break characters,
and a reason line with no line-break characters. -/
def WellFormedBlock (d h a r : List Char) : Prop :=
  d ≠ [] ∧ (∀ c ∈ d, isDigitA c = true) ∧
  h ≠ [] ∧ (∀ c ∈ h, isHexA c = true) ∧
  a ≠ [] ∧ (∀ c, a.head? = some c → isWS c = false) ∧
  (∀ c ∈ a, c ≠ '\n') ∧ (∀ c ∈ a, c ≠ '\r') ∧
  (∀ c ∈ r, c ≠ '\n') ∧ (∀ c ∈ r, c ≠ '\r')

instance (d h a r : List Char) : Decidable (WellFormedBlock d h a r) := by
  unfold WellFormedBlock
  infer_instance

/-- A text block matching the error pattern, written out following the
wording of the specification (and the shape of the regex): the literal
`ERROR`, whitespace, a numeric code, whitespace, a parenthesized
hexadecimal code, whitespace, the action description ending the line, and
a following line carrying the reason. -/
def SpecErrorBlockAt (l : List Char) : Prop :=
  ∃ w1 d w2 hex w3 act rea rest,
    l = errLit ++ (w1 ++ (d ++ (w2 ++ (oxLit ++ (hex ++ ')' ::
      (w3 ++ (act ++ '\n' :: (rea ++ rest)))))))) ∧
    w1 ≠ [] ∧ (∀ c ∈ w1, isWS c = true) ∧
    d ≠ [] ∧ (∀ c ∈ d, isDigitA c = true) ∧
    w2 ≠ [] ∧ (∀ c ∈ w2, isWS c = true) ∧
    hex ≠ [] ∧ (∀ c ∈ hex, isHexA c = true) ∧
    w3 ≠ [] ∧ (∀ c ∈ w3, isWS c = true) ∧
    (∀ c ∈ act, c ≠ '\n') ∧ (∀ c ∈ rea, c ≠ '\n')

/-- The output contains a text block matching the error pattern at some
position (the spec-side reading of parseability). -/
def SpecContainsErrorBlock (l : List Char) : Prop :=
  ∃ pre suf, l = pre ++ suf ∧ SpecErrorBlockAt suf

/-! ## Destination sanitization (`_sanitize_destinations`) -/

/-- The `destinations` argument: either one destination (any non-list,
wrapped into a one-element list by the `isinstance` check) or a list. -/
inductive Destinations where
  | single (d : String)
  | many (ds : List String)

/-- The `isinstance` wrap at the top of `_sanitize_destinations`. -/
def Destinations.toList : Destinations → List String
  | .single d => [d]
  | .many ds => ds

/-- The final list comprehension of `_sanitize_destinations`, keeping the
entries that are nonempty and exist on the filesystem.  `existsFS` stands
for `os.path.exists` (the preceding loop over the entries only emits a
warning for nonexistent directories and does not change the result). -/
def sanitizeGo (existsFS : String → Bool) : List String → List String
  | [] => []
  | d :: rest =>
    if (d != "") && existsFS d then d :: sanitizeGo existsFS rest
    else sanitizeGo existsFS rest

/-- `_sanitize_destinations`. -/
def sanitizeDestinations (existsFS : String → Bool) (destinations : Destinations) :
    List String :=
  sanitizeGo existsFS destinations.toList

/-! ## The `RobocopyTask` state machine

One polling control thread plus a worker pool running `robocopy_call`
jobs.  The embedding sequences the shared-state interactions at cycle
granularity: at the start of each polling cycle the pool progress since the
last poll is applied to every job handle (the oracle field `evolve`), and
an external `terminate()` call during the sleep of cycle `t` is applied at
the end of that cycle (the oracle field `terminateDuring`).  The wall
clock, the filetree comparisons and the deletion counts of
`faim_robocopy.utils` are likewise supplied by the oracle. -/

/-- What a job resolved with, as seen by `future.exception()`: the
`isinstance` test in the callback distinguishes `RobocopyError` from any
other exception only for logging. -/
inductive JobError where
  | robocopy (e : RobocopyError)
  | other
deriving DecidableEq, Repr

/-- The state of a `concurrent.futures.Future`. -/
inductive FutureStatus where
  | pending
  | running
  | doneOk
  | doneErr (e : JobError)
  | cancelled
deriving DecidableEq, Repr

/-- `Future.done()`: true once the future is finished or cancelled. -/
def FutureStatus.isDone : FutureStatus → Bool
  | .doneOk => true
  | .doneErr _ => true
  | .cancelled => true
  | _ => false

/-- `Future.running()`. -/
def FutureStatus.isRunningS : FutureStatus → Bool
  | .running => true
  | _ => false

/-- A job handle: the id records which submission it came from, so that
replacing a handle is observable. -/
structure Future where
  id : Nat
  status : FutureStatus
deriving DecidableEq, Repr

/-- `Future.cancel()`: a pending future becomes cancelled; a running or
finished or already cancelled one is left unchanged. -/
def cancelFuture (f : Future) : Future :=
  { f with status := if f.status = FutureStatus.pending then FutureStatus.cancelled
                     else f.status }

/-- Observable interactions of the task with its collaborators. -/
inductive Event where
  | submitted (dest : String) (jobId : Nat)
  | reported
  | finished
  | failedCall (e : JobError)
deriving DecidableEq, Repr

/-- State owned by a `RobocopyTask` instance: the running flag, the
per-destination future table (a Python dict, embedded as an association
list with dict insertion semantics), the idle timestamp
`_time_at_last_change` (seconds, supplied by the oracle clock), the
cumulative deletion count and the id for the next submission. -/
structure TaskState where
  running : Bool
  futures : List (String × Future)
  lastChange : Int
  nDeleted : Nat
  nextId : Nat
deriving DecidableEq, Repr

/-- `RobocopyTask.__init__`: not running, empty future table. -/
def initTask : TaskState :=
  { running := false, futures := [], lastChange := 0, nDeleted := 0, nextId := 0 }

/-- `RobocopyTask.terminate()`: cancel every handle in the table (only
pending ones change state) and clear the running flag.  The log line it
emits has no state effect. -/
def terminate (s : TaskState) : TaskState :=
  { s with running := false,
           futures := s.futures.map (fun df => (df.1, cancelFuture df.2)) }

/-- `_robocopy_callback`, fired by the pool when a future is done or
cancelled: a cancelled future is only logged; a done future with an
exception is logged and reported through `notifier.failed`; a done future
without exception is only logged.  The returned list holds the notifier
calls made. -/
def robocopyCallback (st : FutureStatus) : List Event :=
  if st = FutureStatus.cancelled then []
  else if st.isDone then
    match st with
    | FutureStatus.doneErr e => [Event.failedCall e]
    | _ => []
  else []

/-- Python dict lookup on the future table. -/
def lookupFuture : List (String × Future) → String → Option Future
  | [], _ => none
  | (d, f) :: rest, dest => if d = dest then some f else lookupFuture rest dest

/-- Python dict assignment on the future table: replace the value at the
key if present (keeping its position), else append. -/
def insertFuture : List (String × Future) → String → Future → List (String × Future)
  | [], d, f => [(d, f)]
  | (d1, f1) :: rest, d, f =>
    if d1 = d then (d1, f) :: rest else (d1, f1) :: insertFuture rest d f

/-- Worker-pool progress applied to every handle when the control thread
polls at cycle `t` (oracle transition per job id). -/
def pollFutures (evolve : Nat → Nat → FutureStatus → FutureStatus) (t : Nat)
    (fs : List (String × Future)) : List (String × Future) :=
  fs.map (fun df => (df.1, { id := df.2.id, status := evolve t df.2.id df.2.status }))

/-- Modelled from the spec: the bodies of `is_filetree_a_subset_of` and
`delete_existing` (`faim_robocopy.utils`) are not part of this repository
snapshot; per spec sections 4.1 and 4.3 the comparison returns a boolean
and pruning returns a deletion count with individual failures contained,
so the `isSubset` and `deleted` fields are total oracle functions.  The
remaining fields supply the genuinely external environment of one run:
the filesystem existence check behind `os.path.exists`, the worker-pool
progress of each job between polls, external `terminate()` calls, and the
wall clock behind `datetime.datetime.now()`. -/
structure Oracle where
  existsFS : String → Bool
  isSubset : Nat → String → Bool
  deleted : Nat → Nat
  evolve : Nat → Nat → FutureStatus → FutureStatus
  terminateDuring : Nat → Bool
  timeAt : Nat → Int

/-- Configuration surface of `RobocopyTask._run` (the `robocopy_kwargs`
passed on to `robocopy_call` do not influence scheduling). -/
structure Config where
  source : String
  destinations : Destinations
  multithread : Bool
  timeInterval : Int
  waitExit : Int
  deleteSource : Bool
  skipFiles : String

/-- `max_workers = 2 if (multithread and len(destinations) >= 2) else 1`. -/
def maxWorkers (cfg : Config) (dests : List String) : Nat :=
  if cfg.multithread && decide (2 ≤ dests.length) then 2 else 1

/-- The initial dict comprehension submitting one job per destination:
a left-to-right sequence of submissions and dict assignments (so with a
duplicated destination entry the table keeps the handle of the last
submission, like a Python dict).  The accumulator carries the table built
so far, the submission events and the next fresh id. -/
def submitAll : List (String × Future) × List Event × Nat → List String →
    List (String × Future) × List Event × Nat
  | acc, [] => acc
  | acc, d :: ds =>
    submitAll
      (insertFuture acc.1 d { id := acc.2.2, status := FutureStatus.pending },
       acc.2.1 ++ [Event.submitted d acc.2.2], acc.2.2 + 1) ds

/-- One destination in the per-destination scan of a polling cycle
(`for dest in destinations`): when the destination tree is not a subset of
the source, record the change time; when additionally its current handle
is done (finished, failed or cancelled), submit a fresh job for it and
replace its handle.  A running or still pending handle is never replaced.
A destination with no table entry cannot occur after the initial
submissions (in the source a missing key would be a dict KeyError); it is
a no-op here. -/
def checkDest (or : Oracle) (t : Nat) (dest : String) (s : TaskState) :
    TaskState × List Event :=
  if or.isSubset t dest then (s, [])
  else
    let s1 := { s with lastChange := or.timeAt t }
    match lookupFuture s1.futures dest with
    | some f =>
      if f.status.isDone then
        ({ s1 with
            futures := insertFuture s1.futures dest
              { id := s1.nextId, status := FutureStatus.pending },
            nextId := s1.nextId + 1 },
         [Event.submitted dest s1.nextId])
      else (s1, [])
    | none => (s1, [])

/-- The per-destination scan over the whole destination list, in order. -/
def checkDests (or : Oracle) (t : Nat) : List String → TaskState → TaskState × List Event
  | [], s => (s, [])
  | d :: ds, s =>
    let step := checkDest or t d s
    let rest := checkDests or t ds step.1
    (rest.1, step.2 ++ rest.2)

/-- Start of a polling cycle: pool progress is applied to the handles. -/
def cycleState0 (or : Oracle) (t : Nat) (s : TaskState) : TaskState :=
  { s with futures := pollFutures or.evolve t s.futures }

/-- A handle observed running refreshes the idle timestamp
(`if any(future.running() ...): self._update_changed()`). -/
def cycleState1 (or : Oracle) (t : Nat) (s : TaskState) : TaskState :=
  if s.futures.any (fun df => df.2.status.isRunningS) then
    { s with lastChange := or.timeAt t }
  else s

/-- Rest of a polling cycle after the idle check did not fire: the
per-destination scan, the optional source pruning, and the sleep with a
`terminate()` arriving during it applied at its end. -/
def cycleTail (or : Oracle) (cfg : Config) (dests : List String) (t : Nat)
    (s : TaskState) : TaskState × List Event :=
  let scan := checkDests or t dests s
  let s3 := if cfg.deleteSource then
      { scan.1 with nDeleted := scan.1.nDeleted + or.deleted t } else scan.1
  (if or.terminateDuring t then terminate s3 else s3, scan.2)

/-- One iteration of the polling loop at cycle `t`: pool progress, idle
refresh by running handles, the `wait_exit` expiry check (minutes,
compared in seconds) breaking the loop, and otherwise the cycle tail.
The boolean result is the `break`. -/
def cycleStep (or : Oracle) (cfg : Config) (dests : List String) (t : Nat)
    (s : TaskState) : TaskState × List Event × Bool :=
  let s1 := cycleState1 or t (cycleState0 or t s)
  if cfg.waitExit * 60 ≤ or.timeAt t - s1.lastChange then
    (s1, [], true)
  else
    let tl := cycleTail or cfg dests t s1
    (tl.1, tl.2, false)

/-- Result of the polling loop: final state, events, the sequence of
values `is_running()` returned at the `while` checks, and whether the loop
exited (rather than running out of fuel). -/
structure LoopOut where
  state : TaskState
  events : List Event
  checks : List Bool
  exited : Bool
deriving DecidableEq, Repr

/-- The `while self.is_running()` loop, with fuel bounding the number of
iterations modelled (the source loop has no intrinsic bound). -/
def runLoop (or : Oracle) (cfg : Config) (dests : List String) :
    Nat → Nat → TaskState → LoopOut
  | 0, _, s => { state := s, events := [], checks := [], exited := false }
  | fuel + 1, t, s =>
    if s.running then
      let step := cycleStep or cfg dests t s
      if step.2.2 then
        { state := step.1, events := step.2.1, checks := [true], exited := true }
      else
        let lo := runLoop or cfg dests fuel (t + 1) step.1
        { state := lo.state, events := step.2.1 ++ lo.events,
          checks := true :: lo.checks, exited := lo.exited }
    else { state := s, events := [], checks := [false], exited := true }

/-- The one exception `_run` raises itself: `RuntimeError` on an empty
sanitized destination list (the configuration error of the spec
taxonomy). -/
inductive RunError where
  | configurationError (msg : String)
deriving DecidableEq, Repr

def configErrorMsg : String := "Need at least one destination to copy to."

/-- Outcome of one `run`: final task state, the events in order, the
running-flag observations of the loop, the raised exception if any, and
whether the modelled fuel sufficed to reach the end of the run. -/
structure RunOutcome where
  finalState : TaskState
  events : List Event
  checks : List Bool
  error : Option RunError
  completed : Bool
deriving DecidableEq, Repr

/-- The sanitized destination list a run works on. -/
def runDests (or : Oracle) (cfg : Config) : List String :=
  sanitizeDestinations or.existsFS cfg.destinations

/-- The initial submissions (`self.futures = { dest: thread_pool.submit(...) }`). -/
def initialSubmit (or : Oracle) (cfg : Config) (s : TaskState) :
    List (String × Future) × List Event × Nat :=
  submitAll ([], [], s.nextId) (runDests or cfg)

/-- Task state when the polling loop is entered: change time recorded
(`self._update_changed()`) and the initial future table installed. -/
def loopStart (or : Oracle) (cfg : Config) (s : TaskState) : TaskState :=
  { s with lastChange := or.timeAt 0,
           futures := (initialSubmit or cfg s).1,
           nextId := (initialSubmit or cfg s).2.2 }

/-- `RobocopyTask._run`: sanitize the destinations and fail with the
configuration error when none is left; otherwise record the change time,
submit one job per destination, run the polling loop, and on leaving the
loop emit the summary report and the `notifier.finished()` call. -/
def runBody (or : Oracle) (cfg : Config) (fuel : Nat) (s : TaskState) : RunOutcome :=
  if (runDests or cfg).isEmpty then
    { finalState := s, events := [], checks := [],
      error := some (RunError.configurationError configErrorMsg), completed := true }
  else
    let lo := runLoop or cfg (runDests or cfg) fuel 0 (loopStart or cfg s)
    if lo.exited then
      { finalState := lo.state,
        events := (initialSubmit or cfg s).2.1 ++ lo.events ++
          [Event.reported, Event.finished],
        checks := lo.checks, error := none, completed := true }
    else
      { finalState := lo.state,
        events := (initialSubmit or cfg s).2.1 ++ lo.events,
        checks := lo.checks, error := none, completed := false }

/-- `RobocopyTask.run`: the `with self` scope sets the running flag on
entry and clears it on exit, also when `_run` leaves by an exception. -/
def runTask (or : Oracle) (cfg : Config) (fuel : Nat) (s : TaskState) : RunOutcome :=
  let out := runBody or cfg fuel { s with running := true }
  { out with finalState := { out.finalState with running := false } }

/-- An oracle whose filesystem has no existing paths, with a trivial pool
and clock. -/
def noFSOracle : Oracle :=
  { existsFS := fun _ => false, isSubset := fun _ _ => true, deleted := fun _ => 0,
    evolve := fun _ _ st => st, terminateDuring := fun _ => false, timeAt := fun _ => 0 }

/-- A configuration with one destination entry and a zero idle threshold. -/
def oneDestConfig : Config :=
  { source := "s", destinations := Destinations.many ["x"], multithread := false,
    timeInterval := 1, waitExit := 0, deleteSource := false, skipFiles := "tmp" }

/-- An oracle with an always-true filesystem and subset check, a frozen
clock, an inert pool and no external terminate. -/
def idleOracle : Oracle :=
  { existsFS := fun _ => true, isSubset := fun _ _ => true, deleted := fun _ => 0,
    evolve := fun _ _ st => st, terminateDuring := fun _ => false, timeAt := fun _ => 0 }

theorem expectStr_length_le : ∀ (ps l r : List Char), expectStr ps l = some r →
    r.length ≤ l.length := by
  intro ps
  induction ps with
  | nil => intro l r h; simp [expectStr] at h; simp [h]
  | cons p ps ih =>
    intro l r h
    cases l with
    | nil => simp [expectStr] at h
    | cons c cs =>
      simp only [expectStr] at h
      split at h
      · exact Nat.le_succ_of_le (ih cs r h)
      · exact absurd h (by simp)

theorem expectStr_length_lt : ∀ (p : Char) (ps l r : List Char),
    expectStr (p :: ps) l = some r → r.length < l.length := by
  intro p ps l r h
  cases l with
  | nil => simp [expectStr] at h
  | cons c cs =>
    simp only [expectStr] at h
    split at h
    · exact Nat.lt_succ_of_le (expectStr_length_le ps cs r h)
    · exact absurd h (by simp)

theorem dropWhile_length_le (p : Char → Bool) : ∀ (l : List Char),
    (l.dropWhile p).length ≤ l.length := by
  intro l
  induction l with
  | nil => simp
  | cons c cs ih =>
    rw [List.dropWhile_cons]
    split
    · exact Nat.le_succ_of_le ih
    · simp

theorem takeWhile1_length_lt (p : Char → Bool) (l t r : List Char)
    (h : takeWhile1 p l = some (t, r)) : r.length < l.length := by
  cases l with
  | nil => simp [takeWhile1] at h
  | cons c cs =>
    simp only [takeWhile1] at h
    split at h
    · simp only [Option.some.injEq, Prod.mk.injEq] at h
      obtain ⟨-, hr⟩ := h
      have := dropWhile_length_le p cs
      subst hr
      simp only [List.length_cons]
      omega
    · exact absurd h (by simp)

theorem tryWS_length_lt : ∀ (n : Nat) (l g2 g3 r : List Char),
    tryWS n l = some (g2, g3, r) → r.length < l.length := by
  intro n
  induction n with
  | zero => intro l g2 g3 r h; simp [tryWS] at h
  | succ i ih =>
    intro l g2 g3 r h
    simp only [tryWS] at h
    split at h
    · rename_i tail heq
      simp only [Option.some.injEq, Prod.mk.injEq] at h
      obtain ⟨-, -, hr⟩ := h
      have h1 : (List.dropWhile notNL (l.drop (i + 1))).length ≤ (l.drop (i + 1)).length :=
        dropWhile_length_le _ _
      have h2 : (l.drop (i + 1)).length = l.length - (i + 1) := List.length_drop _ _
      have h3 : (List.dropWhile notNL tail).length ≤ tail.length := dropWhile_length_le _ _
      have h4 : ('\n' :: tail).length = tail.length + 1 := rfl
      rw [heq] at h1
      subst hr
      omega
    · exact ih l g2 g3 r h

theorem matchErrorAt_length_lt (l : List Char) (m : List Char × List Char × List Char)
    (rest : List Char) (h : matchErrorAt l = some (m, rest)) : rest.length < l.length := by
  simp only [matchErrorAt] at h
  cases h1 : expectStr errLit l with
  | none => simp [h1] at h
  | some l1 =>
  simp only [h1] at h
  cases h2 : takeWhile1 isWS l1 with
  | none => simp [h2] at h
  | some w2 =>
  obtain ⟨w, l2⟩ := w2
  simp only [h2] at h
  cases h3 : takeWhile1 isDigitA l2 with
  | none => simp [h3] at h
  | some w3 =>
  obtain ⟨d, l3⟩ := w3
  simp only [h3] at h
  cases h4 : takeWhile1 isWS l3 with
  | none => simp [h4] at h
  | some w4 =>
  obtain ⟨w', l4⟩ := w4
  simp only [h4] at h
  cases h5 : expectStr oxLit l4 with
  | none => simp [h5] at h
  | some l5 =>
  simp only [h5] at h
  cases h6 : takeWhile1 isHexA l5 with
  | none => simp [h6] at h
  | some w6 =>
  obtain ⟨hx, l6⟩ := w6
  simp only [h6] at h
  have hlt1 : l1.length < l.length := expectStr_length_lt _ _ _ _ h1
  have hlt2 : l2.length < l1.length := takeWhile1_length_lt _ _ _ _ h2
  have hlt3 : l3.length < l2.length := takeWhile1_length_lt _ _ _ _ h3
  have hlt4 : l4.length < l3.length := takeWhile1_length_lt _ _ _ _ h4
  have hlt5 : l5.length ≤ l4.length := expectStr_length_le _ _ _ h5
  have hlt6 : l6.length < l5.length := takeWhile1_length_lt _ _ _ _ h6
  split at h
  · rename_i l7
    cases h7 : matchAfterParen l7 with
    | none => simp [h7] at h
    | some g =>
      obtain ⟨g2, g3, r⟩ := g
      simp only [h7, Option.some.injEq, Prod.mk.injEq] at h
      obtain ⟨-, hr⟩ := h
      have : r.length < l7.length := tryWS_length_lt _ _ _ _ _ h7
      subst hr
      simp only [List.length_cons] at hlt6
      omega
  · exact absurd h (by simp)

/-! ## Computation lemmas for the matcher -/

theorem expectStr_self_append : ∀ (ps rest : List Char),
    expectStr ps (ps ++ rest) = some rest := by
  intro ps
  induction ps with
  | nil => intro rest; simp [expectStr]
  | cons p ps ih => intro rest; simp [expectStr, ih]

theorem takeWhile_append_of {p : Char → Bool} : ∀ (seg rest : List Char),
    (∀ c ∈ seg, p c = true) → (∀ c, rest.head? = some c → p c = false) →
    (seg ++ rest).takeWhile p = seg ∧ (seg ++ rest).dropWhile p = rest := by
  intro seg
  induction seg with
  | nil =>
    intro rest _ h2
    cases rest with
    | nil => simp
    | cons c cs =>
      have := h2 c rfl
      simp [List.takeWhile_cons, List.dropWhile_cons, this]
  | cons c cs ih =>
    intro rest h1 h2
    have hc : p c = true := h1 c (List.mem_cons_self c cs)
    have hrec := ih rest (fun x hx => h1 x (List.mem_cons_of_mem c hx)) h2
    simp [List.takeWhile_cons, List.dropWhile_cons, hc, hrec.1, hrec.2]

theorem takeWhile1_append {p : Char → Bool} (c : Char) (seg rest : List Char)
    (hc : p c = true) (h1 : ∀ x ∈ seg, p x = true)
    (h2 : ∀ x, rest.head? = some x → p x = false) :
    takeWhile1 p (c :: (seg ++ rest)) = some (c :: seg, rest) := by
  have := takeWhile_append_of seg rest h1 h2
  simp [takeWhile1, hc, this.1, this.2]

theorem takeWhile_head_none {p : Char → Bool} (l : List Char)
    (h : ∀ c, l.head? = some c → p c = false) :
    l.takeWhile p = [] ∧ l.dropWhile p = l := by
  cases l with
  | nil => simp
  | cons c cs =>
    have := h c rfl
    simp [List.takeWhile_cons, List.dropWhile_cons, this]

/-- Evaluation of the post-paren fragment on one whitespace character, a
newline-free action line with a trailing carriage return, and a
newline-free reason line with a trailing carriage return, the remainder
being empty or starting at its newline. -/
theorem matchAfterParen_eval (a r tail : List Char)
    (hane : a ≠ [])
    (ha : ∀ c, a.head? = some c → isWS c = false)
    (hanl : ∀ c ∈ a, notNL c = true)
    (hrnl : ∀ c ∈ r, notNL c = true)
    (htail : tail = [] ∨ tail.head? = some '\n') :
    matchAfterParen (' ' :: (a ++ '\r' :: '\n' :: (r ++ '\r' :: tail))) =
      some (a ++ ['\r'], r ++ ['\r'], tail) := by
  have hws : (a ++ '\r' :: '\n' :: (r ++ '\r' :: tail)).takeWhile isWS = [] := by
    refine (takeWhile_head_none _ ?_).1
    intro c hc
    cases a with
    | nil => exact absurd rfl hane
    | cons a0 as =>
      simp only [List.cons_append, List.head?_cons, Option.some.injEq] at hc
      subst hc
      exact ha a0 rfl
  have hg2 : ((a ++ ['\r']) ++ ('\n' :: (r ++ '\r' :: tail))).takeWhile notNL = a ++ ['\r'] ∧
      ((a ++ ['\r']) ++ ('\n' :: (r ++ '\r' :: tail))).dropWhile notNL =
        '\n' :: (r ++ '\r' :: tail) := by
    apply takeWhile_append_of
    · intro c hc
      rcases List.mem_append.mp hc with hmem | hmem
      · exact hanl c hmem
      · simp only [List.mem_singleton] at hmem
        subst hmem
        rfl
    · intro c hc
      simp only [List.head?_cons, Option.some.injEq] at hc
      subst hc
      rfl
  have hg3 : ((r ++ ['\r']) ++ tail).takeWhile notNL = r ++ ['\r'] ∧
      ((r ++ ['\r']) ++ tail).dropWhile notNL = tail := by
    apply takeWhile_append_of
    · intro c hc
      rcases List.mem_append.mp hc with hmem | hmem
      · exact hrnl c hmem
      · simp only [List.mem_singleton] at hmem
        subst hmem
        rfl
    · intro c hc
      rcases htail with h0 | h0
      · subst h0; simp at hc
      · rw [h0] at hc
        simp only [Option.some.injEq] at hc
        subst hc
        rfl
  have hassoc : a ++ '\r' :: '\n' :: (r ++ '\r' :: tail) =
      (a ++ ['\r']) ++ ('\n' :: ((r ++ ['\r']) ++ tail)) := by
    simp
  unfold matchAfterParen
  rw [List.takeWhile_cons]
  have hsp : isWS ' ' = true := by decide
  rw [hsp]
  simp only [if_true, hws]
  show tryWS 1 (' ' :: (a ++ '\r' :: '\n' :: (r ++ '\r' :: tail))) = _
  unfold tryWS
  have hdrop : (' ' :: (a ++ '\r' :: '\n' :: (r ++ '\r' :: tail))).drop 1 =
      a ++ '\r' :: '\n' :: (r ++ '\r' :: tail) := rfl
  rw [hdrop, hassoc]
  have h2a : ((a ++ ['\r']) ++ ('\n' :: ((r ++ ['\r']) ++ tail))).takeWhile notNL
      = a ++ ['\r'] := by
    have := hg2.1
    simpa using this
  have h2b : ((a ++ ['\r']) ++ ('\n' :: ((r ++ ['\r']) ++ tail))).dropWhile notNL
      = '\n' :: ((r ++ ['\r']) ++ tail) := by
    have := hg2.2
    simpa using this
  simp only [h2b, h2a, hg3.1, hg3.2]

theorem isDigitA_not_isWS (c : Char) (h : isDigitA c = true) : isWS c = false := by
  cases hb : isWS c
  · rfl
  · exfalso
    have hmem : c ∈ wsChars := by
      unfold isWS at hb
      simpa using hb
    fin_cases hmem <;> exact absurd h (by decide)

theorem takeWhile1_single {p : Char → Bool} (c : Char) (rest : List Char)
    (hc : p c = true) (h2 : ∀ x, rest.head? = some x → p x = false) :
    takeWhile1 p (c :: rest) = some ([c], rest) := by
  have := takeWhile_head_none rest h2
  simp [takeWhile1, hc, this.1, this.2]

theorem takeWhile1_all {p : Char → Bool} (seg rest : List Char) (hne : seg ≠ [])
    (h1 : ∀ x ∈ seg, p x = true) (h2 : ∀ x, rest.head? = some x → p x = false) :
    takeWhile1 p (seg ++ rest) = some (seg, rest) := by
  cases seg with
  | nil => exact absurd rfl hne
  | cons c cs =>
    have hc : p c = true := h1 c (List.mem_cons_self c cs)
    have := takeWhile_append_of cs rest (fun x hx => h1 x (List.mem_cons_of_mem c hx)) h2
    simp [takeWhile1, hc, this.1, this.2]

/-- Evaluation of the pattern on a single well-formed block: literal
`ERROR`, one space, a digit run, one space, the literal open paren `0x`,
a hex run, the closing paren, one space, the action text, a CRLF line end,
the reason text and its carriage return; the remainder of the input is
empty or starts at the newline ending the reason line. -/
theorem matchErrorAt_eval (d h a r tail : List Char)
    (hdne : d ≠ []) (hdall : ∀ c ∈ d, isDigitA c = true)
    (hhne : h ≠ []) (hhall : ∀ c ∈ h, isHexA c = true)
    (hane : a ≠ []) (hahead : ∀ c, a.head? = some c → isWS c = false)
    (hanl : ∀ c ∈ a, notNL c = true)
    (hrnl : ∀ c ∈ r, notNL c = true)
    (htail : tail = [] ∨ tail.head? = some '\n') :
    matchErrorAt (errLit ++ ' ' :: (d ++ ' ' ::
        (oxLit ++ (h ++ ')' :: ' ' :: (a ++ '\r' :: '\n' :: (r ++ '\r' :: tail)))))) =
      some ((d, a ++ ['\r'], r ++ ['\r']), tail) := by
  have e1 : expectStr errLit (errLit ++ ' ' :: (d ++ ' ' ::
      (oxLit ++ (h ++ ')' :: ' ' :: (a ++ '\r' :: '\n' :: (r ++ '\r' :: tail)))))) =
      some (' ' :: (d ++ ' ' ::
        (oxLit ++ (h ++ ')' :: ' ' :: (a ++ '\r' :: '\n' :: (r ++ '\r' :: tail)))))) :=
    expectStr_self_append _ _
  have e2 : takeWhile1 isWS (' ' :: (d ++ ' ' ::
      (oxLit ++ (h ++ ')' :: ' ' :: (a ++ '\r' :: '\n' :: (r ++ '\r' :: tail)))))) =
      some ([' '], d ++ ' ' ::
        (oxLit ++ (h ++ ')' :: ' ' :: (a ++ '\r' :: '\n' :: (r ++ '\r' :: tail))))) := by
    apply takeWhile1_single
    · decide
    · intro x hx
      cases d with
      | nil => exact absurd rfl hdne
      | cons d0 ds =>
        simp only [List.cons_append, List.head?_cons, Option.some.injEq] at hx
        subst hx
        exact isDigitA_not_isWS d0 (hdall d0 (List.mem_cons_self d0 ds))
  have e3 : takeWhile1 isDigitA (d ++ ' ' ::
      (oxLit ++ (h ++ ')' :: ' ' :: (a ++ '\r' :: '\n' :: (r ++ '\r' :: tail))))) =
      some (d, ' ' ::
        (oxLit ++ (h ++ ')' :: ' ' :: (a ++ '\r' :: '\n' :: (r ++ '\r' :: tail))))) := by
    apply takeWhile1_all _ _ hdne hdall
    intro x hx
    simp only [List.head?_cons, Option.some.injEq] at hx
    subst hx
    decide
  have e4 : takeWhile1 isWS (' ' ::
      (oxLit ++ (h ++ ')' :: ' ' :: (a ++ '\r' :: '\n' :: (r ++ '\r' :: tail))))) =
      some ([' '],
        oxLit ++ (h ++ ')' :: ' ' :: (a ++ '\r' :: '\n' :: (r ++ '\r' :: tail)))) := by
    apply takeWhile1_single
    · decide
    · intro x hx
      simp only [oxLit, List.cons_append, List.head?_cons, Option.some.injEq] at hx
      subst hx
      decide
  have e5 : expectStr oxLit
      (oxLit ++ (h ++ ')' :: ' ' :: (a ++ '\r' :: '\n' :: (r ++ '\r' :: tail)))) =
      some (h ++ ')' :: ' ' :: (a ++ '\r' :: '\n' :: (r ++ '\r' :: tail))) :=
    expectStr_self_append _ _
  have e6 : takeWhile1 isHexA
      (h ++ ')' :: ' ' :: (a ++ '\r' :: '\n' :: (r ++ '\r' :: tail))) =
      some (h, ')' :: ' ' :: (a ++ '\r' :: '\n' :: (r ++ '\r' :: tail))) := by
    apply takeWhile1_all _ _ hhne hhall
    intro x hx
    simp only [List.head?_cons, Option.some.injEq] at hx
    subst hx
    decide
  have e7 : matchAfterParen (' ' :: (a ++ '\r' :: '\n' :: (r ++ '\r' :: tail))) =
      some (a ++ ['\r'], r ++ ['\r'], tail) :=
    matchAfterParen_eval a r tail hane hahead hanl hrnl htail
  simp only [matchErrorAt, e1, e2, e3, e4, e5, e6, e7]

theorem head?_mem {l : List Char} {c : Char} (h : l.head? = some c) : c ∈ l := by
  cases l with
  | nil => simp at h
  | cons x xs =>
    simp only [List.head?_cons, Option.some.injEq] at h
    subst h
    exact List.mem_cons_self x xs

theorem matchErrorAt_nil : matchErrorAt [] = none := rfl

theorem findallGo_nil : ∀ (n : Nat), findallGo n [] = [] := by
  intro n
  cases n with
  | zero => rfl
  | succ k => simp [findallGo, matchErrorAt_nil]

theorem findallGo_fuel : ∀ (n m : Nat) (l : List Char),
    l.length ≤ n → l.length ≤ m → findallGo n l = findallGo m l := by
  intro n
  induction n with
  | zero =>
    intro m l hn _
    have : l = [] := by
      cases l with
      | nil => rfl
      | cons c cs => simp at hn
    subst this
    rw [findallGo_nil, findallGo_nil]
  | succ k ih =>
    intro m l hn hm
    cases l with
    | nil => rw [findallGo_nil, findallGo_nil]
    | cons c cs =>
      cases m with
      | zero => simp at hm
      | succ m1 =>
        simp only [findallGo]
        cases hmt : matchErrorAt (c :: cs) with
        | some p =>
          obtain ⟨mt, rest⟩ := p
          have hrl : rest.length < (c :: cs).length := matchErrorAt_length_lt _ _ _ hmt
          simp only [List.length_cons] at hn hm hrl
          change mt :: findallGo k rest = mt :: findallGo m1 rest
          rw [ih m1 rest (by omega) (by omega)]
        | none =>
          simp only [List.length_cons] at hn hm
          change findallGo k cs = findallGo m1 cs
          exact ih m1 cs (by omega) (by omega)

theorem findallErrors_of_match (l : List Char) (m : List Char × List Char × List Char)
    (rest : List Char) (h : matchErrorAt l = some (m, rest)) :
    findallErrors l = m :: findallErrors rest := by
  cases l with
  | nil => rw [matchErrorAt_nil] at h; exact absurd h (by simp)
  | cons c cs =>
    have hrl : rest.length < (c :: cs).length := matchErrorAt_length_lt _ _ _ h
    unfold findallErrors
    simp only [List.length_cons, findallGo, h]
    rw [findallGo_fuel cs.length rest.length rest (by simpa using Nat.lt_succ_iff.mp hrl)
      (le_refl _)]

theorem findallErrors_cons_of_none (c : Char) (cs : List Char)
    (h : matchErrorAt (c :: cs) = none) :
    findallErrors (c :: cs) = findallErrors cs := by
  unfold findallErrors
  simp only [List.length_cons, findallGo, h]

theorem findallErrors_nil : findallErrors [] = [] := rfl

theorem matchErrorAt_cons_ne (c : Char) (x : List Char) (hc : c ≠ 'E') :
    matchErrorAt (c :: x) = none := by
  have he : expectStr errLit (c :: x) = none := by
    simp [errLit, expectStr, hc]
  simp [matchErrorAt, he]

theorem dropWhile_eq_self_of_head {p : Char → Bool} (l : List Char)
    (h : ∀ c, l.head? = some c → p c = false) : l.dropWhile p = l :=
  (takeWhile_head_none l h).2

theorem stripCR_of_no_cr (l : List Char) (h : ∀ c ∈ l, c ≠ '\r') : stripCR l = l := by
  unfold stripCR
  have h1 : l.dropWhile (fun c => c == '\r') = l := by
    apply dropWhile_eq_self_of_head
    intro c hc
    simpa using h c (head?_mem hc)
  rw [h1]
  have h2 : l.reverse.dropWhile (fun c => c == '\r') = l.reverse := by
    apply dropWhile_eq_self_of_head
    intro c hc
    simpa using h c (List.mem_reverse.mp (head?_mem hc))
  rw [h2, List.reverse_reverse]

theorem stripCR_append_cr (l : List Char) (h : ∀ c ∈ l, c ≠ '\r') :
    stripCR (l ++ ['\r']) = l := by
  unfold stripCR
  cases l with
  | nil => rfl
  | cons x xs =>
    have h1 : ((x :: xs) ++ ['\r']).dropWhile (fun c => c == '\r') = (x :: xs) ++ ['\r'] := by
      apply dropWhile_eq_self_of_head
      intro c hc
      simp only [List.cons_append, List.head?_cons, Option.some.injEq] at hc
      subst hc
      simpa using h x (List.mem_cons_self x xs)
    rw [h1]
    have h2 : ((x :: xs) ++ ['\r']).reverse = '\r' :: (x :: xs).reverse := by
      simp
    rw [h2]
    have h3 : List.dropWhile (fun c => c == '\r') ('\r' :: (x :: xs).reverse) =
        List.dropWhile (fun c => c == '\r') ((x :: xs).reverse) := by
      simp [List.dropWhile_cons]
    rw [h3]
    have h4 : (x :: xs).reverse.dropWhile (fun c => c == '\r') = (x :: xs).reverse := by
      apply dropWhile_eq_self_of_head
      intro c hc
      simpa using h c (List.mem_reverse.mp (head?_mem hc))
    rw [h4, List.reverse_reverse]

theorem blockCore_append (d h a r t : List Char) :
    blockCore d h a r ++ t =
      errLit ++ ' ' :: (d ++ ' ' ::
        (oxLit ++ (h ++ ')' :: ' ' :: (a ++ '\r' :: '\n' :: (r ++ '\r' :: t))))) := by
  simp [blockCore]

theorem bne_nl_of_ne {c : Char} (h : c ≠ '\n') : notNL c = true := by
  simpa [notNL] using h

theorem findall_skip (pre X : List Char) (h : ∀ c ∈ pre, c ≠ 'E') :
    findallErrors (pre ++ X) = findallErrors X := by
  induction pre with
  | nil => rfl
  | cons c cs ih =>
    rw [List.cons_append,
      findallErrors_cons_of_none _ _ (matchErrorAt_cons_ne c _ (h c (List.mem_cons_self c cs))),
      ih (fun x hx => h x (List.mem_cons_of_mem c hx))]

theorem findall_none_of_no_E (l : List Char) (h : ∀ c ∈ l, c ≠ 'E') :
    findallErrors l = [] := by
  have := findall_skip l [] h
  rw [List.append_nil] at this
  rw [this, findallErrors_nil]

theorem findallErrors_two_blocks (pre mid post d1 h1 a1 r1 d2 h2 a2 r2 : List Char)
    (hpre : ∀ c ∈ pre, c ≠ 'E') (hmid : ∀ c ∈ mid, c ≠ 'E') (hpost : ∀ c ∈ post, c ≠ 'E')
    (hw1 : WellFormedBlock d1 h1 a1 r1) (hw2 : WellFormedBlock d2 h2 a2 r2) :
    findallErrors (pre ++ (blockCore d1 h1 a1 r1 ++ '\n' ::
        (mid ++ (blockCore d2 h2 a2 r2 ++ '\n' :: post)))) =
      [(d1, a1 ++ ['\r'], r1 ++ ['\r']), (d2, a2 ++ ['\r'], r2 ++ ['\r'])] := by
  obtain ⟨hd1, hdall1, hh1, hhall1, ha1, hahead1, hanl1, -, hrnl1, -⟩ := hw1
  obtain ⟨hd2, hdall2, hh2, hhall2, ha2, hahead2, hanl2, -, hrnl2, -⟩ := hw2
  have m1 : matchErrorAt (blockCore d1 h1 a1 r1 ++ '\n' ::
      (mid ++ (blockCore d2 h2 a2 r2 ++ '\n' :: post))) =
      some ((d1, a1 ++ ['\r'], r1 ++ ['\r']),
        '\n' :: (mid ++ (blockCore d2 h2 a2 r2 ++ '\n' :: post))) := by
    rw [blockCore_append]
    exact matchErrorAt_eval d1 h1 a1 r1 _ hd1 hdall1 hh1 hhall1 ha1 hahead1
      (fun c hc => bne_nl_of_ne (hanl1 c hc)) (fun c hc => bne_nl_of_ne (hrnl1 c hc))
      (Or.inr rfl)
  have m2 : matchErrorAt (blockCore d2 h2 a2 r2 ++ '\n' :: post) =
      some ((d2, a2 ++ ['\r'], r2 ++ ['\r']), '\n' :: post) := by
    rw [blockCore_append]
    exact matchErrorAt_eval d2 h2 a2 r2 _ hd2 hdall2 hh2 hhall2 ha2 hahead2
      (fun c hc => bne_nl_of_ne (hanl2 c hc)) (fun c hc => bne_nl_of_ne (hrnl2 c hc))
      (Or.inr rfl)
  rw [findall_skip _ _ hpre]
  rw [findallErrors_of_match _ _ _ m1]
  rw [findallErrors_cons_of_none _ _ (matchErrorAt_cons_ne '\n' _ (by decide))]
  rw [findall_skip _ _ hmid]
  rw [findallErrors_of_match _ _ _ m2]
  rw [findallErrors_cons_of_none _ _ (matchErrorAt_cons_ne '\n' _ (by decide))]
  rw [findall_none_of_no_E _ hpost]

/-- C8: an output containing two well-formed error blocks (an ERROR line
with a numeric code, a parenthesized hexadecimal code and an action,
followed by a reason line, with CRLF line endings), in which the
surrounding and interleaved text cannot start a match (it has no capital
E), parses to exactly two records, in document order, each a
code/action/reason triple whose fields have been stripped of the carriage
returns the captures carry. -/
theorem parse_two_blocks_two_records (pre mid post d1 h1 a1 r1 d2 h2 a2 r2 : List Char)
    (hpre : ∀ c ∈ pre, c ≠ 'E') (hmid : ∀ c ∈ mid, c ≠ 'E') (hpost : ∀ c ∈ post, c ≠ 'E')
    (hw1 : WellFormedBlock d1 h1 a1 r1) (hw2 : WellFormedBlock d2 h2 a2 r2) :
    parseList (pre ++ (blockCore d1 h1 a1 r1 ++ '\n' ::
        (mid ++ (blockCore d2 h2 a2 r2 ++ '\n' :: post)))) =
      some [{ code := String.mk d1, action := String.mk a1, reason := String.mk r1 },
            { code := String.mk d2, action := String.mk a2, reason := String.mk r2 }] := by
  have hfa := findallErrors_two_blocks pre mid post d1 h1 a1 r1 d2 h2 a2 r2
    hpre hmid hpost hw1 hw2
  have hdcr1 : ∀ c ∈ d1, c ≠ '\r' := by
    intro c hc he
    subst he
    exact absurd (hw1.2.1 _ hc) (by decide)
  have hdcr2 : ∀ c ∈ d2, c ≠ '\r' := by
    intro c hc he
    subst he
    exact absurd (hw2.2.1 _ hc) (by decide)
  have hacr1 : ∀ c ∈ a1, c ≠ '\r' := hw1.2.2.2.2.2.2.2.1
  have hacr2 : ∀ c ∈ a2, c ≠ '\r' := hw2.2.2.2.2.2.2.2.1
  have hrcr1 : ∀ c ∈ r1, c ≠ '\r' := hw1.2.2.2.2.2.2.2.2.2
  have hrcr2 : ∀ c ∈ r2, c ≠ '\r' := hw2.2.2.2.2.2.2.2.2.2
  unfold parseList
  rw [hfa]
  simp only [List.map_cons, List.map_nil]
  rw [stripCR_of_no_cr d1 hdcr1, stripCR_of_no_cr d2 hdcr2,
    stripCR_append_cr a1 hacr1, stripCR_append_cr a2 hacr2,
    stripCR_append_cr r1 hrcr1, stripCR_append_cr r2 hrcr2]

/-- Closed witness for C8 at a concrete two-block output with a line of
text before, between and after the blocks. -/
theorem parse_two_blocks_two_records_witness :
    (∀ c ∈ ['l', 'o', 'g', '\r', '\n'], c ≠ 'E') ∧
    WellFormedBlock ['1', '2', '3'] ['8', '5'] ['C', 'o', 'p', 'y'] ['D', 'e', 'n'] ∧
    WellFormedBlock ['3', '2'] ['2', '0'] ['F', 'i', 'l', 'e'] ['B', 'a', 'd'] ∧
    parseList (['l', 'o', 'g', '\r', '\n'] ++
        (blockCore ['1', '2', '3'] ['8', '5'] ['C', 'o', 'p', 'y'] ['D', 'e', 'n'] ++
          '\n' :: (['l', 'o', 'g', '\r', '\n'] ++
            (blockCore ['3', '2'] ['2', '0'] ['F', 'i', 'l', 'e'] ['B', 'a', 'd'] ++
              '\n' :: ['l', 'o', 'g', '\r', '\n'])))) =
      some [{ code := String.mk ['1', '2', '3'], action := String.mk ['C', 'o', 'p', 'y'],
              reason := String.mk ['D', 'e', 'n'] },
            { code := String.mk ['3', '2'], action := String.mk ['F', 'i', 'l', 'e'],
              reason := String.mk ['B', 'a', 'd'] }] :=
  ⟨by decide, by decide, by decide,
    parse_two_blocks_two_records ['l', 'o', 'g', '\r', '\n'] ['l', 'o', 'g', '\r', '\n']
      ['l', 'o', 'g', '\r', '\n'] _ _ _ _ _ _ _ _
      (by decide) (by decide) (by decide) (by decide) (by decide)⟩

/-- C1: the exit-status mapping of `robocopy_call`.  A status of at most 7
(0 or 1 meaning success, 2 to 7 the benign log-only range) returns without
raising; a status of at least 8 raises the `RobocopyError` carrying that
return code together with the records parsed from the captured output, and
the `Except` type records that no other exception reaches the caller. -/
theorem robocopy_call_exit_status (returncode : Nat) (output : String) :
    (returncode ≤ 7 → robocopy_call returncode output = Except.ok ()) ∧
    (8 ≤ returncode → robocopy_call returncode output =
      Except.error { returncode := returncode,
                     error_info := parse_errors_from_robocopy_stdout output }) := by
  constructor
  · intro h
    unfold robocopy_call
    rcases Nat.eq_zero_or_pos returncode with h0 | h0
    · simp [h0]
    · have h8 : ¬ 8 ≤ returncode := by omega
      have hne : returncode ≠ 0 := by omega
      simp [hne, h8]
  · intro h
    have hne : returncode ≠ 0 := by omega
    simp [robocopy_call, hne, h, RobocopyError.from_error]

/-- Closed witness for C1 at statuses 1 and 8. -/
theorem robocopy_call_exit_status_witness :
    (1 ≤ 7 ∧ robocopy_call 1 "" = Except.ok ()) ∧
    (8 ≤ 8 ∧ robocopy_call 8 "" =
      Except.error { returncode := 8,
                     error_info := parse_errors_from_robocopy_stdout "" }) :=
  ⟨⟨by decide, (robocopy_call_exit_status 1 "").1 (by decide)⟩,
   ⟨by decide, (robocopy_call_exit_status 8 "").2 (by decide)⟩⟩

/-! ## Soundness of the matcher: a successful match exhibits an error
block of the shape described by the specification. -/

theorem expectStr_sound : ∀ (ps l r : List Char), expectStr ps l = some r → l = ps ++ r := by
  intro ps
  induction ps with
  | nil => intro l r h; simp [expectStr] at h; simp [h]
  | cons p ps ih =>
    intro l r h
    cases l with
    | nil => simp [expectStr] at h
    | cons c cs =>
      simp only [expectStr] at h
      split at h
      · rename_i hc
        subst hc
        rw [List.cons_append, ih cs r h]
      · simp at h

theorem mem_takeWhile {p : Char → Bool} : ∀ (l : List Char) (c : Char),
    c ∈ l.takeWhile p → p c = true := by
  intro l
  induction l with
  | nil => intro c h; simp at h
  | cons x xs ih =>
    intro c h
    rw [List.takeWhile_cons] at h
    split at h
    · rename_i hx
      rcases List.mem_cons.mp h with he | hm
      · subst he; exact hx
      · exact ih c hm
    · simp at h

theorem takeWhile1_sound {p : Char → Bool} (l t r : List Char)
    (h : takeWhile1 p l = some (t, r)) :
    l = t ++ r ∧ t ≠ [] ∧ (∀ c ∈ t, p c = true) := by
  cases l with
  | nil => simp [takeWhile1] at h
  | cons c cs =>
    simp only [takeWhile1] at h
    split at h
    · rename_i hc
      simp only [Option.some.injEq, Prod.mk.injEq] at h
      obtain ⟨ht, hr⟩ := h
      subst ht
      subst hr
      refine ⟨?_, by simp, ?_⟩
      · rw [List.cons_append, List.takeWhile_append_dropWhile]
      · intro x hx
        rcases List.mem_cons.mp hx with he | hm
        · subst he; exact hc
        · exact mem_takeWhile cs x hm
    · simp at h

theorem take_all_of_le_takeWhile {p : Char → Bool} : ∀ (l : List Char) (i : Nat),
    i ≤ (l.takeWhile p).length → ∀ c ∈ l.take i, p c = true := by
  intro l
  induction l with
  | nil => intro i _ c hc; simp at hc
  | cons x xs ih =>
    intro i hi c hc
    rw [List.takeWhile_cons] at hi
    cases i with
    | zero => simp at hc
    | succ j =>
      split at hi
      · rename_i hx
        simp only [List.length_cons, Nat.succ_le_succ_iff] at hi
        rw [List.take_succ_cons] at hc
        rcases List.mem_cons.mp hc with he | hm
        · subst he; exact hx
        · exact ih j hi c hm
      · simp at hi

theorem takeWhile_length_le {p : Char → Bool} : ∀ (l : List Char),
    (l.takeWhile p).length ≤ l.length := by
  intro l
  induction l with
  | nil => simp
  | cons x xs ih =>
    rw [List.takeWhile_cons]
    split
    · simpa using ih
    · simp

theorem tryWS_sound : ∀ (n : Nat) (l g2 g3 r : List Char),
    n ≤ (l.takeWhile isWS).length → tryWS n l = some (g2, g3, r) →
    ∃ w, w ≠ [] ∧ (∀ c ∈ w, isWS c = true) ∧
      l = w ++ (g2 ++ '\n' :: (g3 ++ r)) ∧
      (∀ c ∈ g2, notNL c = true) ∧ (∀ c ∈ g3, notNL c = true) := by
  intro n
  induction n with
  | zero => intro l g2 g3 r _ h; simp [tryWS] at h
  | succ i ih =>
    intro l g2 g3 r hn h
    simp only [tryWS] at h
    split at h
    · rename_i tail heq
      simp only [Option.some.injEq, Prod.mk.injEq] at h
      obtain ⟨hg2, hg3, hr⟩ := h
      refine ⟨l.take (i + 1), ?_, ?_, ?_, ?_, ?_⟩
      · have hlen : i + 1 ≤ l.length :=
          le_trans hn (takeWhile_length_le l)
        have : (l.take (i + 1)).length = i + 1 := by
          rw [List.length_take]
          omega
        intro hnil
        rw [hnil] at this
        simp at this
      · exact take_all_of_le_takeWhile l (i + 1) hn
      · have hsplit : l = l.take (i + 1) ++ l.drop (i + 1) :=
          (List.take_append_drop (i + 1) l).symm
        have h1 : g2 ++ '\n' :: tail = l.drop (i + 1) := by
          have hx := List.takeWhile_append_dropWhile notNL (l.drop (i + 1))
          rw [heq, hg2] at hx
          exact hx
        have htail : g3 ++ r = tail := by
          have hx := List.takeWhile_append_dropWhile notNL tail
          rw [hg3, hr] at hx
          exact hx
        have hdrop : l.drop (i + 1) = g2 ++ '\n' :: (g3 ++ r) := by
          rw [htail, h1]
        rw [← hdrop]
        exact hsplit
      · subst hg2
        exact fun c hc => mem_takeWhile _ c hc
      · subst hg3
        exact fun c hc => mem_takeWhile _ c hc
    · exact ih l g2 g3 r (by omega) h

theorem matchAfterParen_sound (l g2 g3 r : List Char)
    (h : matchAfterParen l = some (g2, g3, r)) :
    ∃ w, w ≠ [] ∧ (∀ c ∈ w, isWS c = true) ∧
      l = w ++ (g2 ++ '\n' :: (g3 ++ r)) ∧
      (∀ c ∈ g2, notNL c = true) ∧ (∀ c ∈ g3, notNL c = true) :=
  tryWS_sound _ l g2 g3 r (le_refl _) h

theorem matchErrorAt_sound (l : List Char) (d g2 g3 rest : List Char)
    (h : matchErrorAt l = some ((d, g2, g3), rest)) : SpecErrorBlockAt l := by
  simp only [matchErrorAt] at h
  cases h1 : expectStr errLit l with
  | none => simp [h1] at h
  | some l1 =>
  simp only [h1] at h
  cases h2 : takeWhile1 isWS l1 with
  | none => simp [h2] at h
  | some w2p =>
  obtain ⟨w1, l2⟩ := w2p
  simp only [h2] at h
  cases h3 : takeWhile1 isDigitA l2 with
  | none => simp [h3] at h
  | some w3p =>
  obtain ⟨dd, l3⟩ := w3p
  simp only [h3] at h
  cases h4 : takeWhile1 isWS l3 with
  | none => simp [h4] at h
  | some w4p =>
  obtain ⟨w2, l4⟩ := w4p
  simp only [h4] at h
  cases h5 : expectStr oxLit l4 with
  | none => simp [h5] at h
  | some l5 =>
  simp only [h5] at h
  cases h6 : takeWhile1 isHexA l5 with
  | none => simp [h6] at h
  | some w6p =>
  obtain ⟨hex, l6⟩ := w6p
  simp only [h6] at h
  split at h
  · rename_i l7
    cases h7 : matchAfterParen l7 with
    | none => simp [h7] at h
    | some g =>
      obtain ⟨g2x, g3x, rx⟩ := g
      simp only [h7, Option.some.injEq, Prod.mk.injEq] at h
      obtain ⟨⟨hde, hg2e, hg3e⟩, hre⟩ := h
      subst hde
      subst hg2e
      subst hg3e
      subst hre
      have s1 := expectStr_sound _ _ _ h1
      have s2 := takeWhile1_sound _ _ _ h2
      have s3 := takeWhile1_sound _ _ _ h3
      have s4 := takeWhile1_sound _ _ _ h4
      have s5 := expectStr_sound _ _ _ h5
      have s6 := takeWhile1_sound _ _ _ h6
      obtain ⟨w3, hw3ne, hw3all, hl7, hg2nl, hg3nl⟩ := matchAfterParen_sound _ _ _ _ h7
      refine ⟨w1, dd, w2, hex, w3, g2x, g3x, rx,
        ?_, s2.2.1, s2.2.2, s3.2.1, s3.2.2, s4.2.1, s4.2.2,
        s6.2.1, s6.2.2, hw3ne, hw3all,
        fun c hc => by simpa [notNL] using hg2nl c hc,
        fun c hc => by simpa [notNL] using hg3nl c hc⟩
      rw [s1, s2.1, s3.1, s4.1, s5, s6.1, hl7]
  · simp at h

theorem findall_sound : ∀ (l : List Char),
    findallErrors l ≠ [] → SpecContainsErrorBlock l := by
  intro l
  induction l with
  | nil => intro h; rw [findallErrors_nil] at h; exact absurd rfl h
  | cons c cs ih =>
    intro h
    cases hm : matchErrorAt (c :: cs) with
    | some p =>
      obtain ⟨⟨d, g2, g3⟩, rest⟩ := p
      exact ⟨[], c :: cs, by simp, matchErrorAt_sound _ _ _ _ _ hm⟩
    | none =>
      rw [findallErrors_cons_of_none _ _ hm] at h
      obtain ⟨pre, suf, heq, hblk⟩ := ih h
      exact ⟨c :: pre, suf, by rw [heq, List.cons_append], hblk⟩

theorem specContains_mem_E (l : List Char) (h : SpecContainsErrorBlock l) : 'E' ∈ l := by
  obtain ⟨pre, suf, heq, w1, d, w2, hex, w3, act, rea, rest, hsuf, -⟩ := h
  rw [heq, hsuf]
  simp [errLit]

/-- C2 (amended): an output containing no text block matching the error
pattern parses to Python `None` — there is no record list at all (rather
than an empty one), no exception is raised (the parser is total), and the
failure is logged as unparsed. -/
theorem parse_no_block_returns_none (l : List Char)
    (h : ¬ SpecContainsErrorBlock l) : parseList l = none := by
  cases hf : findallErrors l with
  | nil =>
    unfold parseList
    rw [hf]
  | cons m ms =>
    exact absurd (findall_sound l (by rw [hf]; simp)) h

/-- Closed witness for C2 at a concrete blockless output. -/
theorem parse_no_block_returns_none_witness : parseList ['h', 'i'] = none :=
  parse_no_block_returns_none ['h', 'i']
    (fun hc => absurd (specContains_mem_E _ hc) (by decide))

/-- C2, counterexample to the literal specification sentence: on an
output with no matching block the parser does not return the empty record
list — it returns `None` (`none` here), a different value than
`some []`. -/
theorem parse_no_block_counterexample :
    ¬ SpecContainsErrorBlock ['o', 'k'] ∧ parseList ['o', 'k'] ≠ some [] := by
  constructor
  · exact fun hc => absurd (specContains_mem_E _ hc) (by decide)
  · have h1 : findallErrors ['o', 'k'] = [] := by
      rw [findallErrors_cons_of_none _ _ (matchErrorAt_cons_ne 'o' _ (by decide)),
        findallErrors_cons_of_none _ _ (matchErrorAt_cons_ne 'k' _ (by decide)),
        findallErrors_nil]
    unfold parseList
    rw [h1]
    simp

/-- C9: sanitization keeps exactly the entries that are nonempty strings
and exist on the filesystem, in their original order (it is the filter of
the input list), and a single non-list destination is treated as the
one-element list. -/
theorem sanitize_destinations_filter (ex : String → Bool) (d : String) (ds : List String) :
    sanitizeDestinations ex (Destinations.single d) =
      sanitizeDestinations ex (Destinations.many [d]) ∧
    sanitizeDestinations ex (Destinations.many ds) =
      ds.filter (fun x => (x != "") && ex x) ∧
    (∀ x, x ∈ sanitizeDestinations ex (Destinations.many ds) ↔
      x ∈ ds ∧ (x ≠ "" ∧ ex x = true)) ∧
    (sanitizeDestinations ex (Destinations.many ds)).Sublist ds := by
  have hgo : ∀ l : List String, sanitizeGo ex l = l.filter (fun x => (x != "") && ex x) := by
    intro l
    induction l with
    | nil => rfl
    | cons x xs ih =>
      cases hp : (x != "") && ex x
      · simp [sanitizeGo, List.filter_cons, hp, ih]
      · simp [sanitizeGo, List.filter_cons, hp, ih]
  refine ⟨rfl, ?_, ?_, ?_⟩
  · exact hgo ds
  · intro x
    show x ∈ sanitizeGo ex ds ↔ _
    rw [hgo ds]
    simp [List.mem_filter, Bool.and_eq_true, bne_iff_ne]
  · show (sanitizeGo ex ds).Sublist ds
    rw [hgo ds]
    exact List.filter_sublist ds

/-- Closed witness for C9 on a concrete destination list with an empty
entry and a nonexistent entry. -/
theorem sanitize_destinations_filter_witness :
    sanitizeDestinations (fun s => s != "gone") (Destinations.many ["a", "", "gone", "b"]) =
      ["a", "", "gone", "b"].filter (fun x => (x != "") && (fun s => s != "gone") x) :=
  (sanitize_destinations_filter (fun s => s != "gone") "a" ["a", "", "gone", "b"]).2.1

/-- C10: the completion callback never reports a cancelled job as failed:
`notifier.failed` is called exactly for a non-cancelled job that resolved
with an exception, and a job that completed without exception triggers no
notifier call. -/
theorem cancelled_job_never_notifies_failed (st : FutureStatus) :
    (st = FutureStatus.cancelled → robocopyCallback st = []) ∧
    (∀ e, Event.failedCall e ∈ robocopyCallback st ↔ st = FutureStatus.doneErr e) ∧
    (st = FutureStatus.doneOk → robocopyCallback st = []) := by
  refine ⟨fun h => by subst h; rfl, ?_, fun h => by subst h; rfl⟩
  intro e
  cases st <;> simp [robocopyCallback, FutureStatus.isDone]
  exact eq_comm

/-- Closed witness for C10: a cancelled handle produces no call, a failed
one produces the failed call. -/
theorem cancelled_job_never_notifies_failed_witness :
    robocopyCallback FutureStatus.cancelled = [] ∧
    Event.failedCall JobError.other ∈ robocopyCallback (FutureStatus.doneErr JobError.other) :=
  ⟨(cancelled_job_never_notifies_failed FutureStatus.cancelled).1 rfl,
   ((cancelled_job_never_notifies_failed (FutureStatus.doneErr JobError.other)).2.1
      JobError.other).mpr rfl⟩

theorem cancelFuture_idem (f : Future) : cancelFuture (cancelFuture f) = cancelFuture f := by
  cases hf : f.status <;> simp [cancelFuture, hf]

/-- C6: `terminate()` is idempotent, leaves the running flag cleared, is a
no-op on a freshly constructed task (safe before start), and cancels every
handle that had not started yet. -/
theorem terminate_idempotent (s : TaskState) :
    terminate (terminate s) = terminate s ∧
    (terminate s).running = false ∧
    terminate initTask = initTask ∧
    (∀ d f, (d, f) ∈ s.futures → f.status = FutureStatus.pending →
      (d, { id := f.id, status := FutureStatus.cancelled }) ∈ (terminate s).futures) := by
  refine ⟨?_, rfl, rfl, ?_⟩
  · have hmap : ∀ fs : List (String × Future),
        (fs.map (fun df => (df.1, cancelFuture df.2))).map
          (fun df => (df.1, cancelFuture df.2)) =
        fs.map (fun df => (df.1, cancelFuture df.2)) := by
      intro fs
      induction fs with
      | nil => rfl
      | cons x xs ih =>
        simp only [List.map_cons, ih, cancelFuture_idem]
    unfold terminate
    simp only [hmap]
  · intro d f hmem hp
    have himg : ((fun df : String × Future => (df.1, cancelFuture df.2)) (d, f)) =
        (d, { id := f.id, status := FutureStatus.cancelled }) := by
      simp [cancelFuture, hp]
    unfold terminate
    rw [← himg]
    exact List.mem_map_of_mem _ hmem

/-- Closed witness for C6 on a state with one pending handle. -/
theorem terminate_idempotent_witness :
    terminate (terminate
      { running := true, futures := [("d", { id := 0, status := FutureStatus.pending })],
        lastChange := 0, nDeleted := 0, nextId := 1 }) =
    terminate
      { running := true, futures := [("d", { id := 0, status := FutureStatus.pending })],
        lastChange := 0, nDeleted := 0, nextId := 1 } ∧
    ("d", { id := 0, status := FutureStatus.cancelled }) ∈
      (terminate
        { running := true, futures := [("d", { id := 0, status := FutureStatus.pending })],
          lastChange := 0, nDeleted := 0, nextId := 1 }).futures :=
  ⟨(terminate_idempotent _).1,
   (terminate_idempotent _).2.2.2 "d" { id := 0, status := FutureStatus.pending }
     (List.mem_singleton.mpr rfl) rfl⟩

/-- C5: with an empty sanitized destination set the run fails immediately
with the configuration error and launches nothing, and this is the only
exception a run can raise. -/
theorem empty_destinations_config_error (or : Oracle) (cfg : Config) (fuel : Nat)
    (s : TaskState) :
    (sanitizeDestinations or.existsFS cfg.destinations = [] →
      runTask or cfg fuel s =
        { finalState := { s with running := false }, events := [], checks := [],
          error := some (RunError.configurationError configErrorMsg), completed := true }) ∧
    (∀ e, (runTask or cfg fuel s).error = some e →
      sanitizeDestinations or.existsFS cfg.destinations = [] ∧
      e = RunError.configurationError configErrorMsg) := by
  have hfirst : sanitizeDestinations or.existsFS cfg.destinations = [] →
      runTask or cfg fuel s =
        { finalState := { s with running := false }, events := [], checks := [],
          error := some (RunError.configurationError configErrorMsg), completed := true } := by
    intro h
    have hdd : runDests or cfg = [] := h
    simp [runTask, runBody, hdd]
  refine ⟨hfirst, ?_⟩
  intro e he
  by_cases hd : sanitizeDestinations or.existsFS cfg.destinations = []
  · rw [hfirst hd] at he
    simp only [Option.some.injEq] at he
    exact ⟨hd, he.symm⟩
  · exfalso
    have hne : (runDests or cfg).isEmpty = false := by
      cases hq : runDests or cfg with
      | nil => exact absurd hq hd
      | cons a as => rfl
    simp only [runTask, runBody, hne] at he
    split at he
    · rename_i hcontra
      exact absurd hcontra (by simp)
    · split at he <;> simp at he

/-- Closed witness for C5: a filesystem where nothing exists empties the
destination set and the run raises the configuration error. -/
theorem empty_destinations_config_error_witness :
    sanitizeDestinations noFSOracle.existsFS oneDestConfig.destinations = [] ∧
    (runTask noFSOracle oneDestConfig 3 initTask).error =
      some (RunError.configurationError configErrorMsg) := by
  constructor
  · rfl
  · rw [(empty_destinations_config_error noFSOracle oneDestConfig 3 initTask).1 rfl]

theorem checkDest_running (or : Oracle) (t : Nat) (dest : String) (s : TaskState) :
    ((checkDest or t dest s).1).running = s.running := by
  unfold checkDest
  split
  · rfl
  · cases hl : lookupFuture { s with lastChange := or.timeAt t }.futures dest with
    | none => simp [hl]
    | some f =>
      cases hd : f.status.isDone with
      | false => simp [hl, hd]
      | true => simp [hl, hd]

theorem checkDests_running (or : Oracle) (t : Nat) : ∀ (ds : List String) (s : TaskState),
    ((checkDests or t ds s).1).running = s.running := by
  intro ds
  induction ds with
  | nil => intro s; rfl
  | cons d rest ih =>
    intro s
    show ((checkDests or t rest (checkDest or t d s).1).1).running = s.running
    rw [ih, checkDest_running]

theorem terminate_running (s : TaskState) : (terminate s).running = false := rfl

theorem cycleState0_running (or : Oracle) (t : Nat) (s : TaskState) :
    (cycleState0 or t s).running = s.running := rfl

theorem cycleState1_running (or : Oracle) (t : Nat) (s : TaskState) :
    (cycleState1 or t s).running = s.running := by
  unfold cycleState1
  split <;> rfl

theorem cycleTail_running (or : Oracle) (cfg : Config) (dests : List String) (t : Nat)
    (s : TaskState) (hnt : or.terminateDuring t = false) :
    ((cycleTail or cfg dests t s).1).running = s.running := by
  unfold cycleTail
  simp only [hnt, Bool.false_eq_true, if_false]
  split
  · show ((checkDests or t dests s).1).running = s.running
    exact checkDests_running or t dests s
  · exact checkDests_running or t dests s

theorem cycleStep_running (or : Oracle) (cfg : Config) (dests : List String) (t : Nat)
    (s : TaskState) (hnt : or.terminateDuring t = false) :
    ((cycleStep or cfg dests t s).1).running = s.running := by
  simp only [cycleStep]
  split
  · rw [cycleState1_running, cycleState0_running]
  · rw [cycleTail_running or cfg dests t _ hnt, cycleState1_running, cycleState0_running]

theorem runLoop_checks_true (or : Oracle) (cfg : Config) (dests : List String)
    (hnt : ∀ u, or.terminateDuring u = false) :
    ∀ (fuel t : Nat) (s : TaskState), s.running = true →
      ∀ b ∈ (runLoop or cfg dests fuel t s).checks, b = true := by
  intro fuel
  induction fuel with
  | zero => intro t s _ b hb; simp [runLoop] at hb
  | succ n ih =>
    intro t s hr b hb
    simp only [runLoop, hr, if_true] at hb
    split at hb
    · simp only [List.mem_singleton] at hb
      exact hb
    · simp only [List.mem_cons] at hb
      rcases hb with rfl | hb
      · rfl
      · exact ih (t + 1) _ (by rw [cycleStep_running or cfg dests t s (hnt t), hr]) b hb

/-- C7: the running flag is false on the freshly constructed task, every
`is_running()` check inside an undisturbed run scope (no external
`terminate()`) observes true, and after `run` returns the flag is false on
every path — the scoped enter and exit also cover the exceptional exit
with the configuration error. -/
theorem running_flag_lifecycle (or : Oracle) (cfg : Config) (fuel : Nat) (s : TaskState) :
    initTask.running = false ∧
    ((runTask or cfg fuel s).finalState).running = false ∧
    ((∀ u, or.terminateDuring u = false) →
      ∀ b ∈ (runTask or cfg fuel s).checks, b = true) := by
  refine ⟨rfl, rfl, ?_⟩
  intro hnt b hb
  simp only [runTask, runBody] at hb
  split at hb
  · simp at hb
  · split at hb
    · simp only at hb
      exact runLoop_checks_true or cfg _ hnt fuel 0 _ rfl b hb
    · simp only at hb
      exact runLoop_checks_true or cfg _ hnt fuel 0 _ rfl b hb

/-- Closed witness for C7: with no external terminate, a concrete
completed run observed only true checks and put the flag back to false. -/
theorem running_flag_lifecycle_witness :
    (∀ u, Oracle.terminateDuring
      { existsFS := fun _ => true, isSubset := fun _ _ => true, deleted := fun _ => 0,
        evolve := fun _ _ st => st, terminateDuring := fun _ => false,
        timeAt := fun _ => 0 } u = false) ∧
    ((runTask
      { existsFS := fun _ => true, isSubset := fun _ _ => true, deleted := fun _ => 0,
        evolve := fun _ _ st => st, terminateDuring := fun _ => false,
        timeAt := fun _ => 0 }
      oneDestConfig 2 initTask).finalState).running = false ∧
    (∀ b ∈ (runTask
      { existsFS := fun _ => true, isSubset := fun _ _ => true, deleted := fun _ => 0,
        evolve := fun _ _ st => st, terminateDuring := fun _ => false,
        timeAt := fun _ => 0 }
      oneDestConfig 2 initTask).checks, b = true) :=
  ⟨fun _ => rfl,
   (running_flag_lifecycle _ oneDestConfig 2 initTask).2.1,
   (running_flag_lifecycle _ oneDestConfig 2 initTask).2.2 (fun _ => rfl)⟩

theorem submitAll_events : ∀ (ds : List String)
    (acc : List (String × Future) × List Event × Nat) (e : Event),
    e ∈ (submitAll acc ds).2.1 → e ∈ acc.2.1 ∨ ∃ dd i, e = Event.submitted dd i := by
  intro ds
  induction ds with
  | nil => intro acc e he; exact Or.inl he
  | cons d rest ih =>
    intro acc e he
    simp only [submitAll] at he
    rcases ih _ e he with hmem | hsub
    · rcases List.mem_append.mp hmem with h1 | h1
      · exact Or.inl h1
      · simp only [List.mem_singleton] at h1
        exact Or.inr ⟨d, acc.2.2, h1⟩
    · exact Or.inr hsub

theorem checkDest_events (or : Oracle) (t : Nat) (dest : String) (s : TaskState) :
    ∀ e ∈ (checkDest or t dest s).2, ∃ dd i, e = Event.submitted dd i := by
  intro e he
  unfold checkDest at he
  split at he
  · simp at he
  · cases hl : lookupFuture { s with lastChange := or.timeAt t }.futures dest with
    | none => simp [hl] at he
    | some f =>
      cases hd : f.status.isDone with
      | false => simp [hl, hd] at he
      | true =>
        simp [hl, hd] at he
        exact ⟨dest, s.nextId, he⟩

theorem checkDests_events (or : Oracle) (t : Nat) : ∀ (ds : List String) (s : TaskState)
    (e : Event), e ∈ (checkDests or t ds s).2 → ∃ dd i, e = Event.submitted dd i := by
  intro ds
  induction ds with
  | nil => intro s e he; simp [checkDests] at he
  | cons d rest ih =>
    intro s e he
    simp only [checkDests] at he
    rcases List.mem_append.mp he with h1 | h1
    · exact checkDest_events or t d s e h1
    · exact ih _ e h1

theorem cycleTail_events (or : Oracle) (cfg : Config) (dests : List String) (t : Nat)
    (s : TaskState) : (cycleTail or cfg dests t s).2 = (checkDests or t dests s).2 := rfl

theorem cycleStep_events (or : Oracle) (cfg : Config) (dests : List String) (t : Nat)
    (s : TaskState) : ∀ e ∈ (cycleStep or cfg dests t s).2.1,
    ∃ dd i, e = Event.submitted dd i := by
  intro e he
  simp only [cycleStep] at he
  split at he
  · simp at he
  · rw [cycleTail_events] at he
    exact checkDests_events or t dests _ e he

theorem runLoop_events (or : Oracle) (cfg : Config) (dests : List String) :
    ∀ (fuel t : Nat) (s : TaskState) (e : Event),
    e ∈ (runLoop or cfg dests fuel t s).events → ∃ dd i, e = Event.submitted dd i := by
  intro fuel
  induction fuel with
  | zero => intro t s e he; simp [runLoop] at he
  | succ n ih =>
    intro t s e he
    simp only [runLoop] at he
    split at he
    · split at he
      · exact cycleStep_events or cfg dests t s e (by simpa using he)
      · rcases List.mem_append.mp (by simpa using he) with h1 | h1
        · exact cycleStep_events or cfg dests t s e h1
        · exact ih (t + 1) _ e h1
    · simp at he

/-- C3 (amended): every run whose destination set sanitizes non-empty and
whose polling loop exits (by idle expiry or cancellation) raises nothing,
emits the summary report, and calls `notifier.finished()` exactly once,
as the final event after the report.  A run aborting at startup with the
configuration error never reaches the finished call, so the stronger
for-any-stop reading does not hold. -/
theorem notifier_finished_once_after_report (or : Oracle) (cfg : Config) (fuel : Nat)
    (s : TaskState)
    (hne : sanitizeDestinations or.existsFS cfg.destinations ≠ [])
    (hcm : (runTask or cfg fuel s).completed = true) :
    (runTask or cfg fuel s).error = none ∧
    ∃ pre, (runTask or cfg fuel s).events = pre ++ [Event.reported, Event.finished] ∧
      Event.finished ∉ pre ∧
      (runTask or cfg fuel s).events.count Event.finished = 1 := by
  have hneb : (runDests or cfg).isEmpty = false := by
    cases hq : runDests or cfg with
    | nil => exact absurd hq hne
    | cons a as => rfl
  cases hex : (runLoop or cfg (runDests or cfg) fuel 0
      (loopStart or cfg { s with running := true })).exited with
  | false =>
    exfalso
    have hfc : (runTask or cfg fuel s).completed = false := by
      simp [runTask, runBody, hneb, hex]
    rw [hcm] at hfc
    exact absurd hfc (by simp)
  | true =>
    have herr : (runTask or cfg fuel s).error = none := by
      simp [runTask, runBody, hneb, hex]
    have hev : (runTask or cfg fuel s).events =
        ((initialSubmit or cfg { s with running := true }).2.1 ++
          (runLoop or cfg (runDests or cfg) fuel 0
            (loopStart or cfg { s with running := true })).events) ++
          [Event.reported, Event.finished] := by
      simp [runTask, runBody, hneb, hex]
    have hpre : Event.finished ∉
        (initialSubmit or cfg { s with running := true }).2.1 ++
          (runLoop or cfg (runDests or cfg) fuel 0
            (loopStart or cfg { s with running := true })).events := by
      intro hmem
      rcases List.mem_append.mp hmem with h1 | h1
      · rcases submitAll_events _ _ _ h1 with h2 | ⟨dd, i, h2⟩
        · simp at h2
        · exact absurd h2 (by simp)
      · rcases runLoop_events or cfg _ fuel 0 _ _ h1 with ⟨dd, i, h2⟩
        exact absurd h2 (by simp)
    refine ⟨herr, _, hev, hpre, ?_⟩
    rw [hev, List.count_append]
    rw [List.count_eq_zero.mpr hpre]
    rfl

/-- Closed witness for C3: a concrete run that expires idle at its first
cycle satisfies the hypotheses and the conclusion. -/
theorem notifier_finished_once_after_report_witness :
    sanitizeDestinations idleOracle.existsFS oneDestConfig.destinations ≠ [] ∧
    (runTask idleOracle oneDestConfig 2 initTask).completed = true ∧
    ((runTask idleOracle oneDestConfig 2 initTask).error = none ∧
      ∃ pre, (runTask idleOracle oneDestConfig 2 initTask).events =
          pre ++ [Event.reported, Event.finished] ∧
        Event.finished ∉ pre ∧
        (runTask idleOracle oneDestConfig 2 initTask).events.count Event.finished = 1) :=
  ⟨by decide, rfl,
   notifier_finished_once_after_report idleOracle oneDestConfig 2 initTask (by decide) rfl⟩

/-- C3, counterexample to the literal specification sentence: a run
stopped by the startup configuration error produces no `finished()` call
at all, so `finished()` is not invoked on every way the task can stop. -/
theorem finished_not_called_on_config_error :
    (runTask noFSOracle oneDestConfig 3 initTask).error =
      some (RunError.configurationError configErrorMsg) ∧
    (runTask noFSOracle oneDestConfig 3 initTask).events.count Event.finished = 0 :=
  ⟨rfl, rfl⟩

/-! ## The per-destination single-job guard (C4) -/

theorem lookup_insert_self (fs : List (String × Future)) (d : String) (nf : Future) :
    lookupFuture (insertFuture fs d nf) d = some nf := by
  induction fs with
  | nil => simp [insertFuture, lookupFuture]
  | cons x rest ih =>
    obtain ⟨d1, f1⟩ := x
    by_cases h : d1 = d
    · simp [insertFuture, lookupFuture, h]
    · simp [insertFuture, lookupFuture, h, ih]

theorem lookup_insert_ne (fs : List (String × Future)) (d1 d : String) (nf : Future)
    (h : d1 ≠ d) :
    lookupFuture (insertFuture fs d1 nf) d = lookupFuture fs d := by
  induction fs with
  | nil => simp [insertFuture, lookupFuture, h]
  | cons x rest ih =>
    obtain ⟨dx, fx⟩ := x
    by_cases hx : dx = d1
    · subst hx
      simp [insertFuture, lookupFuture, h]
    · by_cases hxd : dx = d
      · simp [insertFuture, lookupFuture, hx, hxd, Ne.symm h]
      · simp [insertFuture, lookupFuture, hx, hxd, ih]

theorem insert_keys_of_lookup (fs : List (String × Future)) (d : String) (nf f : Future)
    (h : lookupFuture fs d = some f) :
    (insertFuture fs d nf).map Prod.fst = fs.map Prod.fst := by
  induction fs with
  | nil => simp [lookupFuture] at h
  | cons x rest ih =>
    obtain ⟨dx, fx⟩ := x
    by_cases hx : dx = d
    · simp [insertFuture, hx]
    · simp only [lookupFuture, if_neg hx] at h
      simp [insertFuture, hx, ih h]

theorem lookup_mapVal (g : Future → Future) (fs : List (String × Future)) (d : String) :
    lookupFuture (fs.map (fun df => (df.1, g df.2))) d = (lookupFuture fs d).map g := by
  induction fs with
  | nil => rfl
  | cons x rest ih =>
    obtain ⟨dx, fx⟩ := x
    by_cases hx : dx = d
    · simp [lookupFuture, hx]
    · simp [lookupFuture, hx, ih]

theorem mapVal_keys (g : Future → Future) (fs : List (String × Future)) :
    (fs.map (fun df => (df.1, g df.2))).map Prod.fst = fs.map Prod.fst := by
  induction fs with
  | nil => rfl
  | cons x rest ih => simp [ih]

theorem mapVal_keys_comp (g : Future → Future) (fs : List (String × Future)) :
    fs.map (Prod.fst ∘ fun df => (df.1, g df.2)) = fs.map Prod.fst := by
  induction fs with
  | nil => rfl
  | cons x rest ih => simp [ih]

theorem checkDest_futures_other (or : Oracle) (t : Nat) (d : String) (s : TaskState)
    (dest : String) (hne : d ≠ dest) :
    lookupFuture ((checkDest or t d s).1).futures dest = lookupFuture s.futures dest := by
  unfold checkDest
  split
  · rfl
  · cases hl : lookupFuture { s with lastChange := or.timeAt t }.futures d with
    | none => simp [hl]
    | some f =>
      cases hd2 : f.status.isDone with
      | false => simp [hl, hd2]
      | true => simp [hl, hd2, lookup_insert_ne _ _ _ _ hne]

theorem checkDest_futures_self (or : Oracle) (t : Nat) (dest : String) (s : TaskState)
    (f : Future) (hf : lookupFuture s.futures dest = some f) :
    lookupFuture ((checkDest or t dest s).1).futures dest = some f ∨
    (or.isSubset t dest = false ∧ f.status.isDone = true ∧
      lookupFuture ((checkDest or t dest s).1).futures dest =
        some { id := s.nextId, status := FutureStatus.pending }) := by
  unfold checkDest
  split
  · exact Or.inl hf
  · rename_i hsub
    have hsub2 : or.isSubset t dest = false := by
      cases hq : or.isSubset t dest
      · rfl
      · exact absurd hq hsub
    cases hd2 : f.status.isDone with
    | true =>
      refine Or.inr ⟨hsub2, rfl, ?_⟩
      simp [hf, hd2, lookup_insert_self]
    | false =>
      refine Or.inl ?_
      simp [hf, hd2]

theorem checkDest_keys (or : Oracle) (t : Nat) (d : String) (s : TaskState) :
    ((checkDest or t d s).1).futures.map Prod.fst = s.futures.map Prod.fst := by
  unfold checkDest
  split
  · rfl
  · cases hl : lookupFuture { s with lastChange := or.timeAt t }.futures d with
    | none => simp [hl]
    | some f =>
      cases hd2 : f.status.isDone with
      | false => simp [hl, hd2]
      | true =>
        simp only [hl, hd2]
        simp [insert_keys_of_lookup _ _ _ _ hl]

theorem checkDests_keys (or : Oracle) (t : Nat) : ∀ (ds : List String) (s : TaskState),
    ((checkDests or t ds s).1).futures.map Prod.fst = s.futures.map Prod.fst := by
  intro ds
  induction ds with
  | nil => intro s; rfl
  | cons d rest ih =>
    intro s
    show ((checkDests or t rest (checkDest or t d s).1).1).futures.map Prod.fst = _
    rw [ih, checkDest_keys]

theorem checkDests_lookup (or : Oracle) (t : Nat) : ∀ (ds : List String) (s : TaskState)
    (dest : String) (f : Future), lookupFuture s.futures dest = some f →
    ∃ f2, lookupFuture ((checkDests or t ds s).1).futures dest = some f2 ∧
      (f2 = f ∨ (or.isSubset t dest = false ∧ f.status.isDone = true ∧
        f2.status = FutureStatus.pending)) := by
  intro ds
  induction ds with
  | nil => intro s dest f hf; exact ⟨f, hf, Or.inl rfl⟩
  | cons d rest ih =>
    intro s dest f hf
    show ∃ f2, lookupFuture ((checkDests or t rest (checkDest or t d s).1).1).futures dest
      = some f2 ∧ _
    by_cases hde : d = dest
    · subst hde
      rcases checkDest_futures_self or t d s f hf with h1 | ⟨hsub, hdone, h1⟩
      · exact ih _ d f h1
      · obtain ⟨f2, hf2, hcase⟩ := ih _ d _ h1
        rcases hcase with rfl | ⟨-, hdone2, -⟩
        · exact ⟨_, hf2, Or.inr ⟨hsub, hdone, rfl⟩⟩
        · exact absurd hdone2 (by simp [FutureStatus.isDone])
    · have h1 := checkDest_futures_other or t d s dest hde
      exact ih _ dest f (h1.trans hf)

theorem cycleTail_lookup (or : Oracle) (cfg : Config) (dests : List String) (t : Nat)
    (s : TaskState) (dest : String) (f : Future)
    (hf : lookupFuture s.futures dest = some f) :
    ∃ f2, lookupFuture ((cycleTail or cfg dests t s).1).futures dest = some f2 ∧
      ((f2 = f ∨ f2 = cancelFuture f) ∨
        (or.isSubset t dest = false ∧ f.status.isDone = true ∧
          (f2.status = FutureStatus.pending ∨ f2.status = FutureStatus.cancelled))) := by
  obtain ⟨f3, hf3, hcase⟩ := checkDests_lookup or t dests s dest f hf
  have hfut3 : ∀ hds : Bool,
      (if hds = true then
        { (checkDests or t dests s).1 with
            nDeleted := ((checkDests or t dests s).1).nDeleted + or.deleted t }
       else (checkDests or t dests s).1).futures = ((checkDests or t dests s).1).futures := by
    intro hds
    cases hds <;> rfl
  unfold cycleTail
  cases hterm : or.terminateDuring t with
  | false =>
    refine ⟨f3, ?_, ?_⟩
    · simp only [hterm, Bool.false_eq_true, if_false]
      cases hds : cfg.deleteSource <;> simpa using hf3
    · rcases hcase with rfl | ⟨hsub, hdone, hpend⟩
      · exact Or.inl (Or.inl rfl)
      · exact Or.inr ⟨hsub, hdone, Or.inl hpend⟩
  | true =>
    refine ⟨cancelFuture f3, ?_, ?_⟩
    · simp only [hterm, if_true]
      unfold terminate
      cases hds : cfg.deleteSource <;>
        simp [lookup_mapVal, hf3]
    · rcases hcase with rfl | ⟨hsub, hdone, hpend⟩
      · exact Or.inl (Or.inr rfl)
      · refine Or.inr ⟨hsub, hdone, Or.inr ?_⟩
        simp [cancelFuture, hpend]

theorem cycleTail_keys (or : Oracle) (cfg : Config) (dests : List String) (t : Nat)
    (s : TaskState) :
    ((cycleTail or cfg dests t s).1).futures.map Prod.fst = s.futures.map Prod.fst := by
  unfold cycleTail
  cases hterm : or.terminateDuring t with
  | false =>
    simp only [hterm, Bool.false_eq_true, if_false]
    cases hds : cfg.deleteSource <;> simp [checkDests_keys]
  | true =>
    simp only [hterm, if_true]
    unfold terminate
    cases hds : cfg.deleteSource <;>
      simp [mapVal_keys, mapVal_keys_comp, checkDests_keys]

theorem pollFutures_keys (evolve : Nat → Nat → FutureStatus → FutureStatus) (t : Nat)
    (fs : List (String × Future)) :
    (pollFutures evolve t fs).map Prod.fst = fs.map Prod.fst := by
  unfold pollFutures
  induction fs with
  | nil => rfl
  | cons x rest ih => simp [ih]

theorem cycleState1_futures (or : Oracle) (t : Nat) (s : TaskState) :
    (cycleState1 or t s).futures = s.futures := by
  unfold cycleState1
  split <;> rfl

theorem cycleStep_lookup (or : Oracle) (cfg : Config) (dests : List String) (t : Nat)
    (s : TaskState) (dest : String) (f : Future)
    (hf : lookupFuture (pollFutures or.evolve t s.futures) dest = some f) :
    ∃ f2, lookupFuture ((cycleStep or cfg dests t s).1).futures dest = some f2 ∧
      ((f2 = f ∨ f2 = cancelFuture f) ∨
        (or.isSubset t dest = false ∧ f.status.isDone = true ∧
          (f2.status = FutureStatus.pending ∨ f2.status = FutureStatus.cancelled))) := by
  have hfut : (cycleState1 or t (cycleState0 or t s)).futures =
      pollFutures or.evolve t s.futures := by
    rw [cycleState1_futures]
    rfl
  simp only [cycleStep]
  split
  · refine ⟨f, ?_, Or.inl (Or.inl rfl)⟩
    rw [hfut]
    exact hf
  · exact cycleTail_lookup or cfg dests t _ dest f (by rw [hfut]; exact hf)

theorem cycleStep_keys (or : Oracle) (cfg : Config) (dests : List String) (t : Nat)
    (s : TaskState) :
    ((cycleStep or cfg dests t s).1).futures.map Prod.fst = s.futures.map Prod.fst := by
  have hfut : (cycleState1 or t (cycleState0 or t s)).futures =
      pollFutures or.evolve t s.futures := by
    rw [cycleState1_futures]
    rfl
  simp only [cycleStep]
  split
  · rw [hfut, pollFutures_keys]
  · rw [cycleTail_keys, hfut, pollFutures_keys]

/-- C4: invariant of a polling cycle.  The cycle keeps exactly one handle
per destination (the key sequence of the table is unchanged), and, with
`f` the handle of a destination as polled at the start of the cycle and
`f2` its handle afterwards: the handle was replaced by a new submission
only if drift was detected for that destination and the polled handle was
already terminal (done, failed or cancelled), and a handle polled running
is left exactly as it is — no new job is submitted for it even under
drift. -/
theorem polling_cycle_single_job_guard (or : Oracle) (cfg : Config) (dests : List String)
    (t : Nat) (s : TaskState) (dest : String) (f f2 : Future)
    (hf : lookupFuture (pollFutures or.evolve t s.futures) dest = some f)
    (hf2 : lookupFuture ((cycleStep or cfg dests t s).1).futures dest = some f2) :
    ((cycleStep or cfg dests t s).1).futures.map Prod.fst = s.futures.map Prod.fst ∧
    (f2.id ≠ f.id → or.isSubset t dest = false ∧ f.status.isDone = true) ∧
    (f.status = FutureStatus.running → f2 = f) := by
  obtain ⟨f3, hf3, hcase⟩ := cycleStep_lookup or cfg dests t s dest f hf
  rw [hf2] at hf3
  have hff : f2 = f3 := by
    simpa using hf3
  subst hff
  refine ⟨cycleStep_keys or cfg dests t s, ?_, ?_⟩
  · intro hid
    rcases hcase with (rfl | hc) | ⟨hsub, hdone, -⟩
    · exact absurd rfl hid
    · refine absurd ?_ hid
      rw [hc]
      cases f with
      | mk i st => simp [cancelFuture]
    · exact ⟨hsub, hdone⟩
  · intro hrun
    rcases hcase with (rfl | hc) | ⟨hsub, hdone, -⟩
    · rfl
    · rw [hc]
      cases f with
      | mk i st =>
        simp only at hrun
        simp [cancelFuture, hrun]
    · rw [hrun] at hdone
      exact absurd hdone (by simp [FutureStatus.isDone])

/-- Closed witness for C4 on a cycle observing one running handle. -/
theorem polling_cycle_single_job_guard_witness :
    lookupFuture (pollFutures idleOracle.evolve 0
        [("d", { id := 0, status := FutureStatus.running })]) "d" =
      some { id := 0, status := FutureStatus.running } ∧
    lookupFuture ((cycleStep idleOracle oneDestConfig ["d"] 0
        { running := true, futures := [("d", { id := 0, status := FutureStatus.running })],
          lastChange := 0, nDeleted := 0, nextId := 1 }).1).futures "d" =
      some { id := 0, status := FutureStatus.running } ∧
    (((cycleStep idleOracle oneDestConfig ["d"] 0
        { running := true, futures := [("d", { id := 0, status := FutureStatus.running })],
          lastChange := 0, nDeleted := 0, nextId := 1 }).1).futures.map Prod.fst =
      ([("d", { id := 0, status := FutureStatus.running })] :
        List (String × Future)).map Prod.fst ∧
    (({ id := 0, status := FutureStatus.running } : Future).id ≠
        ({ id := 0, status := FutureStatus.running } : Future).id →
      idleOracle.isSubset 0 "d" = false ∧
      ({ id := 0, status := FutureStatus.running } : Future).status.isDone = true) ∧
    (({ id := 0, status := FutureStatus.running } : Future).status = FutureStatus.running →
      ({ id := 0, status := FutureStatus.running } : Future) =
        { id := 0, status := FutureStatus.running })) :=
  ⟨rfl, rfl,
   polling_cycle_single_job_guard idleOracle oneDestConfig ["d"] 0
     { running := true, futures := [("d", { id := 0, status := FutureStatus.running })],
       lastChange := 0, nDeleted := 0, nextId := 1 } "d"
     { id := 0, status := FutureStatus.running }
     { id := 0, status := FutureStatus.running } rfl rfl⟩

end FaimRobocopy
